import Mathlib

/-!
Verification of the chess engine core (src/lib/engines/minimax.ts and
src/lib/engines/minimax-alpha-beta.ts) against its specification.

The engines interact with the external chess-rules collaborator (chess.js)
only through a narrow interface: `moves({verbose:true})`, `move(m)`, `undo()`,
`isCheckmate()`, `turn()`, `fen()`, plus the evaluator `evaluateBoard`.
A position is therefore embedded as an abstract, finitely branching game tree:
each node carries its FEN string, whose turn it is, its `isCheckmate()` answer,
the integer `evaluateBoard` would return there, and its ordered list of legal
moves, each paired with the resulting position.  The engines' in-place
`move`/`undo` mutation of the shared `Chess` object is embedded by explicit
state passing over a zipper (current node plus ancestor stack), so that the
restoration discipline is itself a provable property rather than baked in.

JavaScript numbers appearing in the engines are either exact integers (the
evaluator's sums, node counters, depths) or the literal ±Infinity sentinels,
so scores are embedded as an `Int` with two adjoined infinities.
-/

namespace Chess

/-- Score values flowing through the search: JavaScript numbers that are
either exact integers (evaluator output) or the `±Infinity` mate sentinels. -/
inductive Score where
  | negInf : Score
  | fin (v : Int) : Score
  | posInf : Score
deriving DecidableEq

/-- Boolean comparison on scores: `negInf < fin v < posInf`, integers ordered
as usual.  This matches the ordering of the corresponding JavaScript numbers. -/
def Score.ble : Score → Score → Bool
  | .negInf, _ => true
  | .fin _, .negInf => false
  | .fin a, .fin b => decide (a ≤ b)
  | .fin _, .posInf => true
  | .posInf, .posInf => true
  | .posInf, _ => false

instance Score.linearOrder : LinearOrder Score where
  le a b := Score.ble a b = true
  le_refl a := by cases a <;> simp [Score.ble]
  le_trans a b c := by
    cases a <;> cases b <;> cases c <;> simp [Score.ble] <;> omega
  le_antisymm a b := by
    cases a <;> cases b <;> simp [Score.ble] <;> omega
  le_total a b := by
    cases a <;> cases b <;> simp [Score.ble] <;> omega
  decidableLE a b := inferInstanceAs (Decidable (Score.ble a b = true))

instance (a b : Score) : Decidable (a ≤ b) := Score.linearOrder.decidableLE a b

instance (a b : Score) : Decidable (a < b) := Score.linearOrder.decidableLT a b

theorem Score.bot_le (s : Score) : Score.negInf ≤ s := by
  show Score.ble .negInf s = true; cases s <;> rfl

theorem Score.le_top (s : Score) : s ≤ Score.posInf := by
  show Score.ble s .posInf = true; cases s <;> rfl

theorem Score.bot_lt_top : Score.negInf < Score.posInf := by decide

/-- A verbose move as produced by `game.moves({ verbose: true })`: SAN
notation, origin and destination squares, moved piece, optional captured and
promotion piece kinds (the fields the engines read). -/
structure MoveData where
  san : String
  fromSq : String
  toSq : String
  piece : String
  captured : Option String
  promotion : Option String
deriving DecidableEq

/-- Abstract position: everything the engines can observe about a `Chess`
object through the collaborator interface.  `children` is the ordered list of
legal moves paired with the position each one leads to (generation order is
significant).  `evalW` is the integer `evaluateBoard` returns at this node. -/
inductive GameTree where
  | node (fen : String) (turnWhite : Bool) (checkmate : Bool) (evalW : Int)
      (children : List (MoveData × GameTree)) : GameTree

def GameTree.fen : GameTree → String
  | .node f _ _ _ _ => f

def GameTree.turnWhite : GameTree → Bool
  | .node _ w _ _ _ => w

def GameTree.checkmate : GameTree → Bool
  | .node _ _ c _ _ => c

def GameTree.evalW : GameTree → Int
  | .node _ _ _ e _ => e

def GameTree.children : GameTree → List (MoveData × GameTree)
  | .node _ _ _ _ ch => ch

/-- Modelled from the spec: `lib/evaluation.ts` is not included under `src/`
(only the engines importing it are).  §4.1 of the spec defines
`evaluate(position)` as a pure, side-effect-free, integer-valued function of
the position's piece placement and side to move (material values plus
piece-square tables, summed and sign-adjusted), with no terminal-state
handling.  The model therefore carries the integer that `evaluateBoard` would
return as the `evalW` field of each position node and reads it back here; no
claim depends on the concrete table contents, only on the value being a finite
integer. -/
def evaluateBoard (t : GameTree) : Score :=
  Score.fin t.evalW

/-- AnalyzedMove from src/lib/types (shape as consumed by the engines):
a move annotated with its search score. -/
structure AnalyzedMove where
  move : String
  score : Score
  fromSq : String
  toSq : String
  piece : String
  captured : Option String
  promotion : Option String
deriving DecidableEq

/-- One NodeAnalysis record, pushed onto `nodeHistory` in debug mode. -/
structure NodeAnalysis where
  move : AnalyzedMove
  depth : Nat
  nodeCount : Nat
  position : String
deriving DecidableEq

/-- EngineConfig: `{depth, debugMode, animationSpeed}`.  The `animationSpeed`
pacing delay is a pure timing effect (`await delay(ms)`) with no influence on
any returned data, so it is carried but never read by the model. -/
structure EngineConfig where
  depth : Nat
  debugMode : Bool
  animationSpeed : Nat
deriving DecidableEq

/-- EngineResult as returned by `findBestMove`. -/
structure EngineResult where
  bestMove : Option AnalyzedMove
  analysis : List AnalyzedMove
  nodesEvaluated : Nat
  nodeHistory : List NodeAnalysis
deriving DecidableEq

/-- The mutable context of one `findBestMove` call: the borrowed `Chess`
object (current node plus the stack of positions `undo` would return to) and
the two closure-captured accumulators `nodesEvaluated` and `nodeHistory`. -/
structure SearchSt where
  stack : List GameTree
  cur : GameTree
  nodes : Nat
  hist : List NodeAnalysis

/-- Operation `game.move(m)`: descend into the child position `c` that move leads to,
remembering the current position for `undo`. -/
def stMove (c : GameTree) (st : SearchSt) : SearchSt :=
  { st with stack := st.cur :: st.stack, cur := c }

/-- Operation `game.undo()`: revert the most recent `move` (no-op on empty history,
as in chess.js). -/
def stUndo (st : SearchSt) : SearchSt :=
  match st.stack with
  | [] => st
  | p :: rest => { st with cur := p, stack := rest }

/-- Operation `nodesEvaluated++`. -/
def incNodes (st : SearchSt) : SearchSt :=
  { st with nodes := st.nodes + 1 }

/-- Helper `this.convertToAnalyzedMove(move, score)` (identical in both engines). -/
def convertToAnalyzedMove (md : MoveData) (score : Score) : AnalyzedMove :=
  { move := md.san, score := score, fromSq := md.fromSq, toSq := md.toSq,
    piece := md.piece, captured := md.captured, promotion := md.promotion }

/-- Operation `nodeHistory.push({move: convertToAnalyzedMove(move, 0), depth: td,
nodeCount: nodesEvaluated, position: game.fen()})`, executed right after
`game.move(move)`, so `st.cur` is already the child position. -/
def pushTrace (md : MoveData) (td : Nat) (st : SearchSt) : SearchSt :=
  { st with hist := st.hist ++
      [{ move := convertToAnalyzedMove md (Score.fin 0), depth := td,
         nodeCount := st.nodes, position := st.cur.fen }] }

/-- Primitive iteration on `Nat`, used to give the depth-indexed recursive
search procedures definitions that the kernel evaluates by `iota` reduction
(so concrete runs can be settled by `decide`). -/
def natIter {α : Type} (base : α) (step : Nat → α → α) : Nat → α
  | 0 => base
  | d + 1 => step d (natIter base step d)

/-!
The plain engine, src/lib/engines/minimax.ts.

`minimax(depth, game)` is an inner async closure over `nodesEvaluated`,
`nodeHistory` and `config`; it increments the node counter, evaluates at
depth 0, maps no-legal-moves to the mate sentinel (negative Infinity when
White is to move, positive when Black is) or stalemate 0, and otherwise folds
`Math.max` (White to move) or `Math.min` (Black) over `evalAfterMove` of each
legal move in generation order.  `evalAfterMove` applies the move, optionally
records a NodeTrace entry (with trace depth `config.depth - nextDepth - 1`,
i.e. `config.depth - depth` for the current call) and recurses one ply down,
then undoes the move.  The `await delay(config.animationSpeed)` pacing is a
pure timing effect and contributes nothing to the state.
-/

/-- White-to-move branch of the plain `minimax`: fold of `Math.max` over
`evalAfterMove(move, depth - 1)` in generation order, starting at `-Infinity`.
`recurse` stands for `minimax(depth - 1, game)`. -/
def loopMaxM (cfg : EngineConfig) (recurse : SearchSt → Score × SearchSt) (td : Nat) :
    List (MoveData × GameTree) → Score → SearchSt → Score × SearchSt
  | [], acc, st => (acc, st)
  | p :: ms, acc, st =>
    let st1 := stMove p.2 st
    let st2 := if cfg.debugMode then pushTrace p.1 td st1 else st1
    let r := recurse st2
    loopMaxM cfg recurse td ms (max acc r.1) (stUndo r.2)

/-- Black-to-move branch of the plain `minimax`: fold of `Math.min`,
starting at `+Infinity`. -/
def loopMinM (cfg : EngineConfig) (recurse : SearchSt → Score × SearchSt) (td : Nat) :
    List (MoveData × GameTree) → Score → SearchSt → Score × SearchSt
  | [], acc, st => (acc, st)
  | p :: ms, acc, st =>
    let st1 := stMove p.2 st
    let st2 := if cfg.debugMode then pushTrace p.1 td st1 else st1
    let r := recurse st2
    loopMinM cfg recurse td ms (min acc r.1) (stUndo r.2)

/-- One unfolding of the plain `minimax(depth, game)` body; `recurse` is the
call at `depth - 1` and `dd` the current `depth` argument. -/
def minimaxBodyM (cfg : EngineConfig) (recurse : SearchSt → Score × SearchSt)
    (dd : Nat) (st0 : SearchSt) : Score × SearchSt :=
  let st := incNodes st0
  if dd = 0 then (evaluateBoard st.cur, st)
  else if st.cur.children.length = 0 then
    ((if st.cur.checkmate then
        (if st.cur.turnWhite then Score.negInf else Score.posInf)
      else Score.fin 0), st)
  else if st.cur.turnWhite then
    loopMaxM cfg recurse (cfg.depth - dd) st.cur.children Score.negInf st
  else
    loopMinM cfg recurse (cfg.depth - dd) st.cur.children Score.posInf st

/-- The plain engine's recursive `minimax(depth, game)`, state-passing form:
returns the value together with the mutated state (position handle, node
counter, trace).  The engine only ever calls it at `depth = config.depth - 1`
with `config.depth ≥ 1`; a JavaScript call at negative depth would not
terminate, so `Nat` depth is faithful on the contract's domain. -/
def minimaxM (cfg : EngineConfig) : Nat → SearchSt → Score × SearchSt :=
  natIter (minimaxBodyM cfg (fun st => (Score.fin 0, st)) 0)
    (fun dd ih => minimaxBodyM cfg ih (dd + 1))

/-- Root driver loop of the plain engine's `findBestMove`: for each root move
apply, search one ply down, undo, push the AnalyzedMove, and track the best:
`value > bestValue` when the engine plays White, `value < bestValue` when it
plays Black — `bestValue` starting from `-Infinity` in both branches, exactly
as in the source. -/
def rootLoopM (cfg : EngineConfig) (engineIsWhite : Bool) :
    List (MoveData × GameTree) → List AnalyzedMove → Option AnalyzedMove → Score →
    SearchSt → List AnalyzedMove × Option AnalyzedMove × SearchSt
  | [], acc, best, _, st => (acc, best, st)
  | p :: ms, acc, best, bv, st =>
    let st1 := stMove p.2 st
    let r := minimaxM cfg (cfg.depth - 1) st1
    let st3 := stUndo r.2
    let am := convertToAnalyzedMove p.1 r.1
    if engineIsWhite then
      (if bv < r.1 then rootLoopM cfg engineIsWhite ms (acc ++ [am]) (some am) r.1 st3
       else rootLoopM cfg engineIsWhite ms (acc ++ [am]) best bv st3)
    else
      (if r.1 < bv then rootLoopM cfg engineIsWhite ms (acc ++ [am]) (some am) r.1 st3
       else rootLoopM cfg engineIsWhite ms (acc ++ [am]) best bv st3)

/-- Stable insertion of `a` into a descending-sorted list: `a` goes in front
of the first element whose score is not greater than `a`'s. -/
def insertDesc (a : AnalyzedMove) : List AnalyzedMove → List AnalyzedMove
  | [] => [a]
  | b :: l => if a.score < b.score then b :: insertDesc a l else a :: b :: l

/-- Embedding of `analysis.sort((a, b) => b.score - a.score)`.  ECMAScript `Array.sort` is
required to be stable, and this comparator induces exactly the descending
order on `Score`: for finite scores the sign of `b.score - a.score` compares
them; when both are the same infinity the subtraction yields NaN, which the
ECMAScript SortCompare rule maps to `+0`, i.e. a tie — the same as equality on
`Score`.  A stable sort with a consistent comparator has a unique result, so
stable insertion sort is an exact embedding of the call. -/
def sortDesc : List AnalyzedMove → List AnalyzedMove
  | [] => []
  | a :: l => insertDesc a (sortDesc l)

/-- Method `MinimaxEngine.findBestMove(game, config)` of src/lib/engines/minimax.ts.
The input position (with empty relevant undo history) is taken as a tree; the
returned pair is the EngineResult together with the final state of the
borrowed position handle (second component), which the source mutates in
place. -/
def MinimaxEngine.findBestMove (t : GameTree) (cfg : EngineConfig) :
    EngineResult × SearchSt :=
  let st0 : SearchSt := ⟨[], t, 0, []⟩
  let r := rootLoopM cfg t.turnWhite t.children [] none Score.negInf st0
  ({ bestMove := r.2.1, analysis := (sortDesc r.1).take 50,
     nodesEvaluated := r.2.2.nodes, nodeHistory := r.2.2.hist }, r.2.2)

/-!
The pruned engine, src/lib/engines/minimax-alpha-beta.ts.

`minimax(depth, alpha, beta, isMaximizing, game)` mirrors the plain recursion
but frames max/min by the `isMaximizing` role, updates `alpha`/`beta` with
each child value, and breaks out of the sibling loop when `beta <= alpha`.
The root driver always recurses with `isMaximizing = false` and always
selects by `value > bestValue`, regardless of whose turn it is.
-/

/-- Maximizing branch of the pruned `minimax`: fold with alpha update and
beta cutoff.  `recurse alpha beta` stands for
`minimax(depth - 1, alpha, beta, false, game)`. -/
def loopMaxAB (cfg : EngineConfig)
    (recurse : Score → Score → SearchSt → Score × SearchSt) (td : Nat) :
    List (MoveData × GameTree) → Score → Score → Score → SearchSt → Score × SearchSt
  | [], maxEval, _, _, st => (maxEval, st)
  | p :: ms, maxEval, alpha, beta, st =>
    let st1 := stMove p.2 st
    let st2 := if cfg.debugMode then pushTrace p.1 td st1 else st1
    let r := recurse alpha beta st2
    let st4 := stUndo r.2
    let maxEval1 : Score := max maxEval r.1
    let alpha1 : Score := max alpha r.1
    if beta ≤ alpha1 then (maxEval1, st4)
    else loopMaxAB cfg recurse td ms maxEval1 alpha1 beta st4

/-- Minimizing branch of the pruned `minimax`: fold with beta update and
alpha cutoff.  `recurse alpha beta` stands for
`minimax(depth - 1, alpha, beta, true, game)`. -/
def loopMinAB (cfg : EngineConfig)
    (recurse : Score → Score → SearchSt → Score × SearchSt) (td : Nat) :
    List (MoveData × GameTree) → Score → Score → Score → SearchSt → Score × SearchSt
  | [], minEval, _, _, st => (minEval, st)
  | p :: ms, minEval, alpha, beta, st =>
    let st1 := stMove p.2 st
    let st2 := if cfg.debugMode then pushTrace p.1 td st1 else st1
    let r := recurse alpha beta st2
    let st4 := stUndo r.2
    let minEval1 : Score := min minEval r.1
    let beta1 : Score := min beta r.1
    if beta1 ≤ alpha then (minEval1, st4)
    else loopMinAB cfg recurse td ms minEval1 alpha beta1 st4

/-- One unfolding of the pruned `minimax` body. -/
def minimaxBodyAB (cfg : EngineConfig)
    (recurse : Score → Score → Bool → SearchSt → Score × SearchSt)
    (dd : Nat) (alpha beta : Score) (isMax : Bool) (st0 : SearchSt) :
    Score × SearchSt :=
  let st := incNodes st0
  if dd = 0 then (evaluateBoard st.cur, st)
  else if st.cur.children.length = 0 then
    ((if st.cur.checkmate then
        (if isMax then Score.negInf else Score.posInf)
      else Score.fin 0), st)
  else if isMax then
    loopMaxAB cfg (fun a b s => recurse a b false s) (cfg.depth - dd)
      st.cur.children Score.negInf alpha beta st
  else
    loopMinAB cfg (fun a b s => recurse a b true s) (cfg.depth - dd)
      st.cur.children Score.posInf alpha beta st

/-- The pruned engine's recursive
`minimax(depth, alpha, beta, isMaximizing, game)`, state-passing form. -/
def minimaxAB (cfg : EngineConfig) :
    Nat → Score → Score → Bool → SearchSt → Score × SearchSt :=
  natIter (fun a b m st => minimaxBodyAB cfg (fun _ _ _ s => (Score.fin 0, s)) 0 a b m st)
    (fun dd ih => fun a b m st => minimaxBodyAB cfg ih (dd + 1) a b m st)

/-- Root driver loop of the pruned engine: always recurses with a full
`(-Infinity, +Infinity)` window and `isMaximizing = false`, and always tracks
the best by `value > bestValue` from `bestValue = -Infinity`. -/
def rootLoopAB (cfg : EngineConfig) :
    List (MoveData × GameTree) → List AnalyzedMove → Option AnalyzedMove → Score →
    SearchSt → List AnalyzedMove × Option AnalyzedMove × SearchSt
  | [], acc, best, _, st => (acc, best, st)
  | p :: ms, acc, best, bv, st =>
    let st1 := stMove p.2 st
    let r := minimaxAB cfg (cfg.depth - 1) Score.negInf Score.posInf false st1
    let st3 := stUndo r.2
    let am := convertToAnalyzedMove p.1 r.1
    if bv < r.1 then rootLoopAB cfg ms (acc ++ [am]) (some am) r.1 st3
    else rootLoopAB cfg ms (acc ++ [am]) best bv st3

/-- Method `MinimaxAlphaBetaEngine.findBestMove(game, config)` of
src/lib/engines/minimax-alpha-beta.ts. -/
def MinimaxAlphaBetaEngine.findBestMove (t : GameTree) (cfg : EngineConfig) :
    EngineResult × SearchSt :=
  let st0 : SearchSt := ⟨[], t, 0, []⟩
  let r := rootLoopAB cfg t.children [] none Score.negInf st0
  ({ bestMove := r.2.1, analysis := (sortDesc r.1).take 50,
     nodesEvaluated := r.2.2.nodes, nodeHistory := r.2.2.hist }, r.2.2)

/-!
Pure mirrors of the two recursive searches.  `valM`, `cntM` and `appM` give,
as functions of the position subtree alone, the value returned by one plain
`minimax(depth, game)` call, the number of times it increments
`nodesEvaluated`, and the number of `game.move` applications it performs;
`abRun` packages the same three quantities for the pruned search (whose
explored set depends on the `(alpha, beta)` window) together with the number
of `beta <= alpha` break events.  The characterization lemmas below prove
that the state-passing engines compute exactly these quantities.
-/

/-- Value of the plain `minimax(depth, game)` call at a position. -/
def valM : Nat → GameTree → Score :=
  natIter (fun t => evaluateBoard t)
    (fun _ ih t =>
      if t.children.length = 0 then
        (if t.checkmate then
          (if t.turnWhite then Score.negInf else Score.posInf)
         else Score.fin 0)
      else if t.turnWhite then
        (t.children.map (fun p => ih p.2)).foldl max Score.negInf
      else
        (t.children.map (fun p => ih p.2)).foldl min Score.posInf)

/-- Number of `nodesEvaluated` increments one plain `minimax(depth, game)`
call performs (every call increments once, including leaves). -/
def cntM : Nat → GameTree → Nat :=
  natIter (fun _ => 1)
    (fun _ ih t =>
      if t.children.length = 0 then 1
      else 1 + (t.children.map (fun p => ih p.2)).sum)

/-- Number of `game.move` applications one plain `minimax(depth, game)` call
performs (one per generated move, plus the moves applied by the recursive
calls; zero at depth 0 and at terminal nodes). -/
def appM : Nat → GameTree → Nat :=
  natIter (fun _ => 0)
    (fun _ ih t =>
      if t.children.length = 0 then 0
      else (t.children.map (fun p => 1 + ih p.2)).sum)

/-- Observable quantities of one pruned `minimax` call: returned value, node
counter increments, `game.move` applications, and `beta <= alpha` break
events. -/
structure AbOut where
  val : Score
  cnt : Nat
  app : Nat
  cut : Nat
deriving DecidableEq

/-- Mirror of the maximizing sibling loop of the pruned search. -/
def abLoopMax (f : Score → Score → GameTree → AbOut) :
    List (MoveData × GameTree) → Score → Score → Score → AbOut
  | [], maxEval, _, _ => ⟨maxEval, 0, 0, 0⟩
  | p :: ms, maxEval, alpha, beta =>
    let o := f alpha beta p.2
    let maxEval1 : Score := max maxEval o.val
    let alpha1 : Score := max alpha o.val
    if beta ≤ alpha1 then ⟨maxEval1, o.cnt, 1 + o.app, o.cut + 1⟩
    else
      let r := abLoopMax f ms maxEval1 alpha1 beta
      ⟨r.val, o.cnt + r.cnt, 1 + o.app + r.app, o.cut + r.cut⟩

/-- Mirror of the minimizing sibling loop of the pruned search. -/
def abLoopMin (f : Score → Score → GameTree → AbOut) :
    List (MoveData × GameTree) → Score → Score → Score → AbOut
  | [], minEval, _, _ => ⟨minEval, 0, 0, 0⟩
  | p :: ms, minEval, alpha, beta =>
    let o := f alpha beta p.2
    let minEval1 : Score := min minEval o.val
    let beta1 : Score := min beta o.val
    if beta1 ≤ alpha then ⟨minEval1, o.cnt, 1 + o.app, o.cut + 1⟩
    else
      let r := abLoopMin f ms minEval1 alpha beta1
      ⟨r.val, o.cnt + r.cnt, 1 + o.app + r.app, o.cut + r.cut⟩

/-- Mirror of one pruned `minimax(depth, alpha, beta, isMaximizing, game)`
call. -/
def abRun : Nat → Score → Score → Bool → GameTree → AbOut :=
  natIter (fun _ _ _ t => ⟨evaluateBoard t, 1, 0, 0⟩)
    (fun _ ih alpha beta isMax t =>
      if t.children.length = 0 then
        ⟨(if t.checkmate then
            (if isMax then Score.negInf else Score.posInf)
          else Score.fin 0), 1, 0, 0⟩
      else if isMax then
        let r := abLoopMax (fun a b c => ih a b false c) t.children
          Score.negInf alpha beta
        ⟨r.val, 1 + r.cnt, r.app, r.cut⟩
      else
        let r := abLoopMin (fun a b c => ih a b true c) t.children
          Score.posInf alpha beta
        ⟨r.val, 1 + r.cnt, r.app, r.cut⟩)

/-- The root AnalyzedMove list of the plain engine, in move-generation order:
one entry per legal root move, scored by the one-ply-down search. -/
def rootListM (cfg : EngineConfig) (t : GameTree) : List AnalyzedMove :=
  t.children.map (fun p => convertToAnalyzedMove p.1 (valM (cfg.depth - 1) p.2))

/-- The root AnalyzedMove list of the pruned engine, in move-generation
order. -/
def rootListAB (cfg : EngineConfig) (t : GameTree) : List AnalyzedMove :=
  t.children.map (fun p =>
    convertToAnalyzedMove p.1
      ((abRun (cfg.depth - 1) Score.negInf Score.posInf false p.2).val))

/-- Mirror of the `value > bestValue` best-move tracking fold. -/
def selMax : List AnalyzedMove → Option AnalyzedMove → Score → Option AnalyzedMove
  | [], best, _ => best
  | a :: l, best, bv =>
    if bv < a.score then selMax l (some a) a.score else selMax l best bv

/-- Mirror of the `value < bestValue` best-move tracking fold (the plain
engine's Black branch). -/
def selMin : List AnalyzedMove → Option AnalyzedMove → Score → Option AnalyzedMove
  | [], best, _ => best
  | a :: l, best, bv =>
    if a.score < bv then selMin l (some a) a.score else selMin l best bv

/-- Total `nodesEvaluated` of a plain-engine `findBestMove` call. -/
def rootCntM (cfg : EngineConfig) (t : GameTree) : Nat :=
  (t.children.map (fun p => cntM (cfg.depth - 1) p.2)).sum

/-- Total `nodesEvaluated` of a pruned-engine `findBestMove` call. -/
def rootCntAB (cfg : EngineConfig) (t : GameTree) : Nat :=
  (t.children.map (fun p =>
    (abRun (cfg.depth - 1) Score.negInf Score.posInf false p.2).cnt)).sum

/-- Number of `game.move` applications performed below root level by a
plain-engine `findBestMove` call (the root-level applications are the
`t.children.length` additional ones). -/
def rootAppM (cfg : EngineConfig) (t : GameTree) : Nat :=
  (t.children.map (fun p => appM (cfg.depth - 1) p.2)).sum

/-- Number of `game.move` applications performed below root level by a
pruned-engine `findBestMove` call. -/
def rootAppAB (cfg : EngineConfig) (t : GameTree) : Nat :=
  (t.children.map (fun p =>
    (abRun (cfg.depth - 1) Score.negInf Score.posInf false p.2).app)).sum

/-- Total number of `game.move` applications of a plain-engine
`findBestMove` call: one per root move, plus the recursive ones. -/
def totalApplyCallsM (cfg : EngineConfig) (t : GameTree) : Nat :=
  t.children.length + rootAppM cfg t

/-- Total number of `beta <= alpha` cutoff events of a pruned-engine
`findBestMove` call (the root loop itself never breaks). -/
def rootCutAB (cfg : EngineConfig) (t : GameTree) : Nat :=
  (t.children.map (fun p =>
    (abRun (cfg.depth - 1) Score.negInf Score.posInf false p.2).cut)).sum

/-- Chess positions alternate the side to move along every line of play:
`AltTurn w t` says the side to move at `t` is `w` (white = `true`) and flips
at every child.  Every tree arising from actual chess positions satisfies
this; claims comparing the two engines' turn-based and role-based framings
assume it. -/
inductive AltTurn : Bool → GameTree → Prop where
  | mk (w : Bool) (t : GameTree) (hw : t.turnWhite = w)
      (hch : ∀ p ∈ t.children, AltTurn (!w) p.2) : AltTurn w t

/-!
Concrete inputs used to settle individual claims.  Each tree is the
interface-level abstraction of a reachable chess position (FEN given in the
node), listing its legal moves in generation order; `evalW` fields stand for
whatever integers the evaluator returns at those positions — where a claim
depends on them, the accompanying comment justifies the choice.
-/

/-- Search configurations used by the concrete scenarios. -/
def cfgD1 : EngineConfig := ⟨1, false, 0⟩

def cfgD2 : EngineConfig := ⟨2, false, 0⟩

def cfgD2dbg : EngineConfig := ⟨2, true, 0⟩

def cfgD3 : EngineConfig := ⟨3, false, 0⟩

/-- A Black-to-move position with one legal move (abstraction of e.g.
8/8/8/8/8/2k5/1q6/K7 b: Black plays Qb1#).  Exercises the plain engine's
Black-root selection branch. -/
def tC1 : GameTree :=
  .node "8/8/8/8/8/2k5/1q6/K7 b - - 0 1" false false (-9)
    [(⟨"Qb1#", "b2", "b1", "q", none, none⟩,
      .node "8/8/8/8/8/2k5/8/Kq6 w - - 0 1" true true (-9) [])]

/-- A White-to-move position with two root moves, each answered by one Black
reply, for instantiating depth-2 white-root scenarios. -/
def tC1w : GameTree :=
  .node "c1w-root" true false 0
    [(⟨"a3", "a2", "a3", "p", none, none⟩,
      .node "c1w-a" false false 1
        [(⟨"h6", "h7", "h6", "p", none, none⟩,
          .node "c1w-a1" true false 3 [])]),
     (⟨"b3", "b2", "b3", "p", none, none⟩,
      .node "c1w-b" false false 2
        [(⟨"g6", "g7", "g6", "p", none, none⟩,
          .node "c1w-b1" true false (-1) [])])]

/-- A Black-to-move position with two legal king moves (abstraction of e.g.
k7/8/8/8/8/8/8/7K b). -/
def tC2 : GameTree :=
  .node "k7/8/8/8/8/8/8/7K b - - 0 1" false false 0
    [(⟨"Kb8", "a8", "b8", "k", none, none⟩,
      .node "1k6/8/8/8/8/8/8/7K w - - 1 2" true false 0 []),
     (⟨"Ka7", "a8", "a7", "k", none, none⟩,
      .node "8/k7/8/8/8/8/8/7K w - - 1 2" true false 0 [])]

/-- A White-to-move mate-in-1 position where the quiet mating move leads to a
position of lower static evaluation than a non-mating queen capture (the
mated position keeps material level, the capture wins a queen), searched at
depth 1.  Any integer evaluator produces finite scores here. -/
def tC3x : GameTree :=
  .node "c3x-root" true false 0
    [(⟨"Ra8#", "a1", "a8", "r", none, none⟩,
      .node "c3x-mate" false true 0 []),
     (⟨"Rxd5", "d1", "d5", "r", some "q", none⟩,
      .node "c3x-capture" false false 9 [])]

/-- A White-to-move mate-in-1 position, searched at depth 2: one mating move
and one quiet alternative with a Black reply. -/
def tC3w : GameTree :=
  .node "c3w-root" true false 0
    [(⟨"Qg7#", "g3", "g7", "q", none, none⟩,
      .node "c3w-mate" false true 0 []),
     (⟨"Kb1", "a1", "b1", "k", none, none⟩,
      .node "c3w-quiet" false false 2
        [(⟨"Kf7", "f8", "f7", "k", none, none⟩,
          .node "c3w-quiet-reply" true false 3 [])])]

/-- A depth-3 White-to-move line on which the pruned search triggers exactly
one `beta <= alpha` cutoff, after the last sibling of a node — so the cutoff
skips nothing and both engines visit the same 6 nodes. -/
def tC5x : GameTree :=
  .node "c5x-root" true false 0
    [(⟨"e4", "e2", "e4", "p", none, none⟩,
      .node "c5x-n1" false false 0
        [(⟨"e5", "e7", "e5", "p", none, none⟩,
          .node "c5x-c1" true false 0
            [(⟨"d4", "d2", "d4", "p", none, none⟩,
              .node "c5x-l11" false false 5 [])]),
         (⟨"d5", "d7", "d5", "p", none, none⟩,
          .node "c5x-c2" true false 0
            [(⟨"c4", "c2", "c4", "p", none, none⟩,
              .node "c5x-l21" false false 0 []),
             (⟨"d4", "d2", "d4", "p", none, none⟩,
              .node "c5x-l22" false false 7 [])])])]

/-- A two-move White position searched at depth 1 (no cutoff can occur). -/
def tC5w : GameTree :=
  .node "c5w-root" true false 0
    [(⟨"a3", "a2", "a3", "p", none, none⟩, .node "c5w-a" false false 1 []),
     (⟨"a4", "a2", "a4", "p", none, none⟩, .node "c5w-b" false false 2 [])]

/-- A two-move White position for instantiating the analysis-shape claim. -/
def tC6w : GameTree :=
  .node "c6w-root" true false 0
    [(⟨"Nf3", "g1", "f3", "n", none, none⟩, .node "c6w-a" false false 4 []),
     (⟨"Nc3", "b1", "c3", "n", none, none⟩, .node "c6w-b" false false 4 [])]

/-- A single-line position (one root move, one reply) searched at depth 2 in
debug mode: the search applies 2 moves but traces only the non-root one. -/
def tC8x : GameTree :=
  .node "c8x-root" true false 0
    [(⟨"e4", "e2", "e4", "p", none, none⟩,
      .node "c8x-child" false false 1
        [(⟨"e5", "e7", "e5", "p", none, none⟩,
          .node "c8x-grandchild" true false 3 [])])]

/-- Same shape as `tC8x`, used to instantiate the corrected trace-length
statement. -/
def tC8w : GameTree :=
  .node "c8w-root" true false 0
    [(⟨"d4", "d2", "d4", "p", none, none⟩,
      .node "c8w-child" false false 1
        [(⟨"d5", "d7", "d5", "p", none, none⟩,
          .node "c8w-grandchild" true false 3 [])])]

/-- A two-move White position whose second-generated move scores best. -/
def tC9w : GameTree :=
  .node "c9w-root" true false 0
    [(⟨"a3", "a2", "a3", "p", none, none⟩, .node "c9w-a" false false 2 []),
     (⟨"Qh5", "d1", "h5", "q", none, none⟩, .node "c9w-b" false false 7 [])]

/-- The best root move of `tC9w` at depth 1. -/
def bmC9 : AnalyzedMove :=
  convertToAnalyzedMove ⟨"Qh5", "d1", "h5", "q", none, none⟩ (Score.fin 7)

/-- A single-line position searched at depth 2 in debug mode, producing one
trace entry. -/
def tC10w : GameTree :=
  .node "c10-root" true false 0
    [(⟨"c4", "c2", "c4", "p", none, none⟩,
      .node "c10-child" false false 1
        [(⟨"c5", "c7", "c5", "p", none, none⟩,
          .node "c10-grandchild" true false 3 [])])]

/-- The one trace entry the debug search on `tC10w` records. -/
def entC10 : NodeAnalysis :=
  ⟨convertToAnalyzedMove ⟨"c5", "c7", "c5", "p", none, none⟩ (Score.fin 0),
   1, 1, "c10-grandchild"⟩

/-!
Theorems.  First, unfolding equations for the depth-indexed definitions and
elementary facts about scores, turn alternation and state operations.
-/

theorem minimaxM_zero (cfg : EngineConfig) (st : SearchSt) :
    minimaxM cfg 0 st = minimaxBodyM cfg (fun s => (Score.fin 0, s)) 0 st := rfl

theorem minimaxM_succ (cfg : EngineConfig) (d : Nat) (st : SearchSt) :
    minimaxM cfg (d + 1) st = minimaxBodyM cfg (minimaxM cfg d) (d + 1) st := rfl

theorem minimaxAB_zero (cfg : EngineConfig) (a b : Score) (m : Bool) (st : SearchSt) :
    minimaxAB cfg 0 a b m st =
      minimaxBodyAB cfg (fun _ _ _ s => (Score.fin 0, s)) 0 a b m st := rfl

theorem minimaxAB_succ (cfg : EngineConfig) (d : Nat) (a b : Score) (m : Bool)
    (st : SearchSt) :
    minimaxAB cfg (d + 1) a b m st =
      minimaxBodyAB cfg (minimaxAB cfg d) (d + 1) a b m st := rfl

theorem valM_zero (t : GameTree) : valM 0 t = evaluateBoard t := rfl

theorem valM_succ (d : Nat) (t : GameTree) :
    valM (d + 1) t =
      (if t.children.length = 0 then
        (if t.checkmate then
          (if t.turnWhite then Score.negInf else Score.posInf)
         else Score.fin 0)
      else if t.turnWhite then
        (t.children.map (fun p => valM d p.2)).foldl max Score.negInf
      else
        (t.children.map (fun p => valM d p.2)).foldl min Score.posInf) := rfl

theorem cntM_zero (t : GameTree) : cntM 0 t = 1 := rfl

theorem cntM_succ (d : Nat) (t : GameTree) :
    cntM (d + 1) t =
      (if t.children.length = 0 then 1
       else 1 + (t.children.map (fun p => cntM d p.2)).sum) := rfl

theorem appM_zero (t : GameTree) : appM 0 t = 0 := rfl

theorem appM_succ (d : Nat) (t : GameTree) :
    appM (d + 1) t =
      (if t.children.length = 0 then 0
       else (t.children.map (fun p => 1 + appM d p.2)).sum) := rfl

theorem abRun_zero (a b : Score) (m : Bool) (t : GameTree) :
    abRun 0 a b m t = ⟨evaluateBoard t, 1, 0, 0⟩ := rfl

theorem abRun_succ (d : Nat) (a b : Score) (m : Bool) (t : GameTree) :
    abRun (d + 1) a b m t =
      (if t.children.length = 0 then
        ⟨(if t.checkmate then
            (if m then Score.negInf else Score.posInf)
          else Score.fin 0), 1, 0, 0⟩
      else if m then
        let r := abLoopMax (fun x y c => abRun d x y false c) t.children
          Score.negInf a b
        ⟨r.val, 1 + r.cnt, r.app, r.cut⟩
      else
        let r := abLoopMin (fun x y c => abRun d x y true c) t.children
          Score.posInf a b
        ⟨r.val, 1 + r.cnt, r.app, r.cut⟩) := rfl

theorem AltTurn.turn_eq {w : Bool} {t : GameTree} (h : AltTurn w t) :
    t.turnWhite = w := by
  cases h with
  | mk _ _ hw _ => exact hw

theorem AltTurn.child {w : Bool} {t : GameTree} (h : AltTurn w t) :
    ∀ p ∈ t.children, AltTurn (!w) p.2 := by
  cases h with
  | mk _ _ _ hch => exact hch

theorem stUndo_stMove (c : GameTree) (st : SearchSt) (n : Nat)
    (hl : List NodeAnalysis) :
    stUndo ⟨st.cur :: st.stack, c, n, hl⟩ = ⟨st.stack, st.cur, n, hl⟩ := rfl

/-!
Characterization of the plain engine: the state-passing search equals the
pure mirrors, restores the position handle on every path, adds exactly
`cntM`/`appM` to the counters, and appends a trace whose entries all carry
score 0.
-/

theorem loopMaxM_char (cfg : EngineConfig) (d td : Nat)
    (IH : ∀ (stk : List GameTree) (cur : GameTree) (n : Nat)
        (hh : List NodeAnalysis), ∃ tl,
      minimaxM cfg d ⟨stk, cur, n, hh⟩ =
        (valM d cur, ⟨stk, cur, n + cntM d cur, hh ++ tl⟩) ∧
      tl.length = (if cfg.debugMode then appM d cur else 0) ∧
      ∀ e ∈ tl, e.move.score = Score.fin 0) :
    ∀ (ms : List (MoveData × GameTree)) (acc : Score) (stk : List GameTree)
      (cur : GameTree) (n : Nat) (hh : List NodeAnalysis), ∃ tl,
      loopMaxM cfg (minimaxM cfg d) td ms acc ⟨stk, cur, n, hh⟩ =
        ((ms.map (fun p => valM d p.2)).foldl max acc,
         ⟨stk, cur, n + (ms.map (fun p => cntM d p.2)).sum, hh ++ tl⟩) ∧
      tl.length =
        (if cfg.debugMode then (ms.map (fun p => 1 + appM d p.2)).sum else 0) ∧
      ∀ e ∈ tl, e.move.score = Score.fin 0 := by
  intro ms
  induction ms with
  | nil =>
    intro acc stk cur n hh
    exact ⟨[], by simp [loopMaxM], by simp, by simp⟩
  | cons p ms ih =>
    intro acc stk cur n hh
    obtain ⟨L, hLeq, hLlen, hLsc⟩ : ∃ L,
        (if cfg.debugMode then pushTrace p.1 td (stMove p.2 ⟨stk, cur, n, hh⟩)
         else stMove p.2 ⟨stk, cur, n, hh⟩) = ⟨cur :: stk, p.2, n, hh ++ L⟩ ∧
        L.length = (if cfg.debugMode then 1 else 0) ∧
        ∀ e ∈ L, e.move.score = Score.fin 0 := by
      cases hdm : cfg.debugMode
      · exact ⟨[], by simp [stMove, hdm], by simp [hdm], by simp⟩
      · exact ⟨[⟨convertToAnalyzedMove p.1 (Score.fin 0), td, n, p.2.fen⟩],
          by simp [stMove, pushTrace, hdm], by simp [hdm],
          by simp [convertToAnalyzedMove]⟩
    obtain ⟨tl1, h1, hlen1, hsc1⟩ := IH (cur :: stk) p.2 n (hh ++ L)
    obtain ⟨tl2, h2, hlen2, hsc2⟩ := ih (max acc (valM d p.2)) stk cur
      (n + cntM d p.2) ((hh ++ L) ++ tl1)
    refine ⟨L ++ (tl1 ++ tl2), ?_, ?_, ?_⟩
    · show loopMaxM cfg (minimaxM cfg d) td (p :: ms) acc ⟨stk, cur, n, hh⟩ = _
      rw [loopMaxM, hLeq, h1]
      show loopMaxM cfg (minimaxM cfg d) td ms (max acc (valM d p.2))
          (stUndo ⟨cur :: stk, p.2, n + cntM d p.2, (hh ++ L) ++ tl1⟩) = _
      rw [show stUndo ⟨cur :: stk, p.2, n + cntM d p.2, (hh ++ L) ++ tl1⟩ =
        (⟨stk, cur, n + cntM d p.2, (hh ++ L) ++ tl1⟩ : SearchSt) from rfl, h2]
      simp [Nat.add_assoc, List.append_assoc]
    · rw [List.length_append, List.length_append, hLlen, hlen1, hlen2]
      cases hdm : cfg.debugMode <;> simp [hdm, Nat.add_assoc]
    · intro e he
      rcases List.mem_append.mp he with he | he
      · exact hLsc e he
      rcases List.mem_append.mp he with he | he
      · exact hsc1 e he
      · exact hsc2 e he

theorem loopMinM_char (cfg : EngineConfig) (d td : Nat)
    (IH : ∀ (stk : List GameTree) (cur : GameTree) (n : Nat)
        (hh : List NodeAnalysis), ∃ tl,
      minimaxM cfg d ⟨stk, cur, n, hh⟩ =
        (valM d cur, ⟨stk, cur, n + cntM d cur, hh ++ tl⟩) ∧
      tl.length = (if cfg.debugMode then appM d cur else 0) ∧
      ∀ e ∈ tl, e.move.score = Score.fin 0) :
    ∀ (ms : List (MoveData × GameTree)) (acc : Score) (stk : List GameTree)
      (cur : GameTree) (n : Nat) (hh : List NodeAnalysis), ∃ tl,
      loopMinM cfg (minimaxM cfg d) td ms acc ⟨stk, cur, n, hh⟩ =
        ((ms.map (fun p => valM d p.2)).foldl min acc,
         ⟨stk, cur, n + (ms.map (fun p => cntM d p.2)).sum, hh ++ tl⟩) ∧
      tl.length =
        (if cfg.debugMode then (ms.map (fun p => 1 + appM d p.2)).sum else 0) ∧
      ∀ e ∈ tl, e.move.score = Score.fin 0 := by
  intro ms
  induction ms with
  | nil =>
    intro acc stk cur n hh
    exact ⟨[], by simp [loopMinM], by simp, by simp⟩
  | cons p ms ih =>
    intro acc stk cur n hh
    obtain ⟨L, hLeq, hLlen, hLsc⟩ : ∃ L,
        (if cfg.debugMode then pushTrace p.1 td (stMove p.2 ⟨stk, cur, n, hh⟩)
         else stMove p.2 ⟨stk, cur, n, hh⟩) = ⟨cur :: stk, p.2, n, hh ++ L⟩ ∧
        L.length = (if cfg.debugMode then 1 else 0) ∧
        ∀ e ∈ L, e.move.score = Score.fin 0 := by
      cases hdm : cfg.debugMode
      · exact ⟨[], by simp [stMove, hdm], by simp [hdm], by simp⟩
      · exact ⟨[⟨convertToAnalyzedMove p.1 (Score.fin 0), td, n, p.2.fen⟩],
          by simp [stMove, pushTrace, hdm], by simp [hdm],
          by simp [convertToAnalyzedMove]⟩
    obtain ⟨tl1, h1, hlen1, hsc1⟩ := IH (cur :: stk) p.2 n (hh ++ L)
    obtain ⟨tl2, h2, hlen2, hsc2⟩ := ih (min acc (valM d p.2)) stk cur
      (n + cntM d p.2) ((hh ++ L) ++ tl1)
    refine ⟨L ++ (tl1 ++ tl2), ?_, ?_, ?_⟩
    · show loopMinM cfg (minimaxM cfg d) td (p :: ms) acc ⟨stk, cur, n, hh⟩ = _
      rw [loopMinM, hLeq, h1]
      show loopMinM cfg (minimaxM cfg d) td ms (min acc (valM d p.2))
          (stUndo ⟨cur :: stk, p.2, n + cntM d p.2, (hh ++ L) ++ tl1⟩) = _
      rw [show stUndo ⟨cur :: stk, p.2, n + cntM d p.2, (hh ++ L) ++ tl1⟩ =
        (⟨stk, cur, n + cntM d p.2, (hh ++ L) ++ tl1⟩ : SearchSt) from rfl, h2]
      simp [Nat.add_assoc, List.append_assoc]
    · rw [List.length_append, List.length_append, hLlen, hlen1, hlen2]
      cases hdm : cfg.debugMode <;> simp [hdm, Nat.add_assoc]
    · intro e he
      rcases List.mem_append.mp he with he | he
      · exact hLsc e he
      rcases List.mem_append.mp he with he | he
      · exact hsc1 e he
      · exact hsc2 e he

/-- Characterization of one plain `minimax(depth, game)` call: it computes
`valM`, leaves the position handle exactly where it started, adds `cntM` to
the node counter, and appends (in debug mode) `appM` trace entries, all of
score 0. -/
theorem minimaxM_char (cfg : EngineConfig) :
    ∀ (d : Nat) (stk : List GameTree) (cur : GameTree) (n : Nat)
      (hh : List NodeAnalysis), ∃ tl,
      minimaxM cfg d ⟨stk, cur, n, hh⟩ =
        (valM d cur, ⟨stk, cur, n + cntM d cur, hh ++ tl⟩) ∧
      tl.length = (if cfg.debugMode then appM d cur else 0) ∧
      ∀ e ∈ tl, e.move.score = Score.fin 0 := by
  intro d
  induction d with
  | zero =>
    intro stk cur n hh
    exact ⟨[], by simp [minimaxM_zero, minimaxBodyM, incNodes, valM_zero, cntM_zero],
      by simp [appM_zero], by simp⟩
  | succ d ihd =>
    intro stk cur n hh
    by_cases hlen : cur.children.length = 0
    · refine ⟨[], ?_, by simp [appM_succ, hlen], by simp⟩
      simp [minimaxM_succ, minimaxBodyM, incNodes, hlen, valM_succ, cntM_succ]
    · by_cases hw : cur.turnWhite
      · obtain ⟨tl, h1, h2, h3⟩ := loopMaxM_char cfg d (cfg.depth - (d + 1)) ihd
          cur.children Score.negInf stk cur (n + 1) hh
        refine ⟨tl, ?_, ?_, h3⟩
        · rw [minimaxM_succ]
          show minimaxBodyM cfg (minimaxM cfg d) (d + 1) ⟨stk, cur, n, hh⟩ = _
          rw [show (⟨stk, cur, n, hh⟩ : SearchSt) = ⟨stk, cur, n, hh⟩ from rfl]
          simp only [minimaxBodyM, incNodes, Nat.succ_ne_zero, if_false, hlen, hw,
            if_true]
          rw [h1]
          simp [valM_succ, cntM_succ, hlen, hw, Nat.add_assoc, Nat.add_comm 1]
        · rw [h2, appM_succ]
          simp [hlen]
      · obtain ⟨tl, h1, h2, h3⟩ := loopMinM_char cfg d (cfg.depth - (d + 1)) ihd
          cur.children Score.posInf stk cur (n + 1) hh
        refine ⟨tl, ?_, ?_, h3⟩
        · rw [minimaxM_succ]
          show minimaxBodyM cfg (minimaxM cfg d) (d + 1) ⟨stk, cur, n, hh⟩ = _
          simp only [minimaxBodyM, incNodes, Nat.succ_ne_zero, if_false, hlen, hw,
            if_true]
          rw [h1]
          simp [valM_succ, cntM_succ, hlen, hw, Nat.add_assoc, Nat.add_comm 1]
        · rw [h2, appM_succ]
          simp [hlen]

theorem rootLoopM_char (cfg : EngineConfig) (w : Bool) :
    ∀ (ms : List (MoveData × GameTree)) (acc : List AnalyzedMove)
      (best : Option AnalyzedMove) (bv : Score) (stk : List GameTree)
      (cur : GameTree) (n : Nat) (hh : List NodeAnalysis), ∃ tl,
      rootLoopM cfg w ms acc best bv ⟨stk, cur, n, hh⟩ =
        (acc ++ ms.map (fun p =>
           convertToAnalyzedMove p.1 (valM (cfg.depth - 1) p.2)),
         (if w then
            selMax (ms.map (fun p =>
              convertToAnalyzedMove p.1 (valM (cfg.depth - 1) p.2))) best bv
          else
            selMin (ms.map (fun p =>
              convertToAnalyzedMove p.1 (valM (cfg.depth - 1) p.2))) best bv),
         ⟨stk, cur, n + (ms.map (fun p => cntM (cfg.depth - 1) p.2)).sum,
          hh ++ tl⟩) ∧
      tl.length =
        (if cfg.debugMode then
          (ms.map (fun p => appM (cfg.depth - 1) p.2)).sum else 0) ∧
      ∀ e ∈ tl, e.move.score = Score.fin 0 := by
  intro ms
  induction ms with
  | nil =>
    intro acc best bv stk cur n hh
    refine ⟨[], ?_, by simp, by simp⟩
    cases w <;> simp [rootLoopM, selMax, selMin]
  | cons p ms ih =>
    intro acc best bv stk cur n hh
    obtain ⟨tl1, h1, hlen1, hsc1⟩ :=
      minimaxM_char cfg (cfg.depth - 1) (cur :: stk) p.2 n hh
    have hundo : stUndo ⟨cur :: stk, p.2, n + cntM (cfg.depth - 1) p.2,
        hh ++ tl1⟩ =
        (⟨stk, cur, n + cntM (cfg.depth - 1) p.2, hh ++ tl1⟩ : SearchSt) := rfl
    by_cases hw : w
    · by_cases hlt : bv < valM (cfg.depth - 1) p.2
      · obtain ⟨tl2, h2, hlen2, hsc2⟩ := ih
          (acc ++ [convertToAnalyzedMove p.1 (valM (cfg.depth - 1) p.2)])
          (some (convertToAnalyzedMove p.1 (valM (cfg.depth - 1) p.2)))
          (valM (cfg.depth - 1) p.2) stk cur (n + cntM (cfg.depth - 1) p.2)
          (hh ++ tl1)
        refine ⟨tl1 ++ tl2, ?_, ?_, ?_⟩
        · show rootLoopM cfg w (p :: ms) acc best bv ⟨stk, cur, n, hh⟩ = _
          rw [rootLoopM]
          show (if w then _ else _) = _
          rw [if_pos hw]
          show (if bv < (minimaxM cfg (cfg.depth - 1)
              (stMove p.2 ⟨stk, cur, n, hh⟩)).1 then _ else _) = _
          rw [show stMove p.2 ⟨stk, cur, n, hh⟩ =
            (⟨cur :: stk, p.2, n, hh⟩ : SearchSt) from rfl, h1]
          show (if bv < valM (cfg.depth - 1) p.2 then _ else _) = _
          rw [if_pos hlt]
          show rootLoopM cfg w ms _ _ _ (stUndo _) = _
          rw [hundo, h2]
          simp [hw, selMax, convertToAnalyzedMove, hlt, Nat.add_assoc,
            List.append_assoc]
        · rw [List.length_append, hlen1, hlen2]
          cases hdm : cfg.debugMode <;> simp [hdm]
        · intro e he
          rcases List.mem_append.mp he with he | he
          · exact hsc1 e he
          · exact hsc2 e he
      · obtain ⟨tl2, h2, hlen2, hsc2⟩ := ih
          (acc ++ [convertToAnalyzedMove p.1 (valM (cfg.depth - 1) p.2)])
          best bv stk cur (n + cntM (cfg.depth - 1) p.2) (hh ++ tl1)
        refine ⟨tl1 ++ tl2, ?_, ?_, ?_⟩
        · show rootLoopM cfg w (p :: ms) acc best bv ⟨stk, cur, n, hh⟩ = _
          rw [rootLoopM]
          show (if w then _ else _) = _
          rw [if_pos hw]
          show (if bv < (minimaxM cfg (cfg.depth - 1)
              (stMove p.2 ⟨stk, cur, n, hh⟩)).1 then _ else _) = _
          rw [show stMove p.2 ⟨stk, cur, n, hh⟩ =
            (⟨cur :: stk, p.2, n, hh⟩ : SearchSt) from rfl, h1]
          show (if bv < valM (cfg.depth - 1) p.2 then _ else _) = _
          rw [if_neg hlt]
          show rootLoopM cfg w ms _ _ _ (stUndo _) = _
          rw [hundo, h2]
          simp [hw, selMax, convertToAnalyzedMove, hlt, Nat.add_assoc,
            List.append_assoc]
        · rw [List.length_append, hlen1, hlen2]
          cases hdm : cfg.debugMode <;> simp [hdm]
        · intro e he
          rcases List.mem_append.mp he with he | he
          · exact hsc1 e he
          · exact hsc2 e he
    · by_cases hlt : valM (cfg.depth - 1) p.2 < bv
      · obtain ⟨tl2, h2, hlen2, hsc2⟩ := ih
          (acc ++ [convertToAnalyzedMove p.1 (valM (cfg.depth - 1) p.2)])
          (some (convertToAnalyzedMove p.1 (valM (cfg.depth - 1) p.2)))
          (valM (cfg.depth - 1) p.2) stk cur (n + cntM (cfg.depth - 1) p.2)
          (hh ++ tl1)
        refine ⟨tl1 ++ tl2, ?_, ?_, ?_⟩
        · show rootLoopM cfg w (p :: ms) acc best bv ⟨stk, cur, n, hh⟩ = _
          rw [rootLoopM]
          show (if w then _ else _) = _
          rw [if_neg hw]
          show (if (minimaxM cfg (cfg.depth - 1)
              (stMove p.2 ⟨stk, cur, n, hh⟩)).1 < bv then _ else _) = _
          rw [show stMove p.2 ⟨stk, cur, n, hh⟩ =
            (⟨cur :: stk, p.2, n, hh⟩ : SearchSt) from rfl, h1]
          show (if valM (cfg.depth - 1) p.2 < bv then _ else _) = _
          rw [if_pos hlt]
          show rootLoopM cfg w ms _ _ _ (stUndo _) = _
          rw [hundo, h2]
          simp [hw, selMin, convertToAnalyzedMove, hlt, Nat.add_assoc,
            List.append_assoc]
        · rw [List.length_append, hlen1, hlen2]
          cases hdm : cfg.debugMode <;> simp [hdm]
        · intro e he
          rcases List.mem_append.mp he with he | he
          · exact hsc1 e he
          · exact hsc2 e he
      · obtain ⟨tl2, h2, hlen2, hsc2⟩ := ih
          (acc ++ [convertToAnalyzedMove p.1 (valM (cfg.depth - 1) p.2)])
          best bv stk cur (n + cntM (cfg.depth - 1) p.2) (hh ++ tl1)
        refine ⟨tl1 ++ tl2, ?_, ?_, ?_⟩
        · show rootLoopM cfg w (p :: ms) acc best bv ⟨stk, cur, n, hh⟩ = _
          rw [rootLoopM]
          show (if w then _ else _) = _
          rw [if_neg hw]
          show (if (minimaxM cfg (cfg.depth - 1)
              (stMove p.2 ⟨stk, cur, n, hh⟩)).1 < bv then _ else _) = _
          rw [show stMove p.2 ⟨stk, cur, n, hh⟩ =
            (⟨cur :: stk, p.2, n, hh⟩ : SearchSt) from rfl, h1]
          show (if valM (cfg.depth - 1) p.2 < bv then _ else _) = _
          rw [if_neg hlt]
          show rootLoopM cfg w ms _ _ _ (stUndo _) = _
          rw [hundo, h2]
          simp [hw, selMin, convertToAnalyzedMove, hlt, Nat.add_assoc,
            List.append_assoc]
        · rw [List.length_append, hlen1, hlen2]
          cases hdm : cfg.debugMode <;> simp [hdm]
        · intro e he
          rcases List.mem_append.mp he with he | he
          · exact hsc1 e he
          · exact hsc2 e he

/-- Characterization of the whole plain-engine `findBestMove` call in terms
of the pure mirrors. -/
theorem plainFind_char (t : GameTree) (cfg : EngineConfig) : ∃ tl,
    MinimaxEngine.findBestMove t cfg =
      ({ bestMove :=
           (if t.turnWhite then selMax (rootListM cfg t) none Score.negInf
            else selMin (rootListM cfg t) none Score.negInf),
         analysis := (sortDesc (rootListM cfg t)).take 50,
         nodesEvaluated := rootCntM cfg t,
         nodeHistory := tl },
       ⟨[], t, rootCntM cfg t, tl⟩) ∧
    tl.length = (if cfg.debugMode then rootAppM cfg t else 0) ∧
    ∀ e ∈ tl, e.move.score = Score.fin 0 := by
  obtain ⟨tl, h1, h2, h3⟩ :=
    rootLoopM_char cfg t.turnWhite t.children [] none Score.negInf [] t 0 []
  refine ⟨tl, ?_, ?_, h3⟩
  · simp only [MinimaxEngine.findBestMove]
    rw [h1]
    simp [rootListM, rootCntM]
  · rw [h2]
    cases hdm : cfg.debugMode <;> simp [hdm, rootAppM]

/-!
Characterization of the pruned engine in terms of `abRun`, including the
early-exit (cutoff) paths.
-/

theorem loopMaxAB_char (cfg : EngineConfig) (d td : Nat)
    (IH : ∀ (a b : Score) (m : Bool) (stk : List GameTree) (cur : GameTree)
        (n : Nat) (hh : List NodeAnalysis), ∃ tl,
      minimaxAB cfg d a b m ⟨stk, cur, n, hh⟩ =
        ((abRun d a b m cur).val,
         ⟨stk, cur, n + (abRun d a b m cur).cnt, hh ++ tl⟩) ∧
      tl.length = (if cfg.debugMode then (abRun d a b m cur).app else 0) ∧
      ∀ e ∈ tl, e.move.score = Score.fin 0) :
    ∀ (ms : List (MoveData × GameTree)) (maxEval alpha beta : Score)
      (stk : List GameTree) (cur : GameTree) (n : Nat)
      (hh : List NodeAnalysis), ∃ tl,
      loopMaxAB cfg (fun a b s => minimaxAB cfg d a b false s) td ms
          maxEval alpha beta ⟨stk, cur, n, hh⟩ =
        ((abLoopMax (fun a b c => abRun d a b false c) ms maxEval alpha beta).val,
         ⟨stk, cur,
          n + (abLoopMax (fun a b c => abRun d a b false c) ms maxEval alpha beta).cnt,
          hh ++ tl⟩) ∧
      tl.length =
        (if cfg.debugMode then
          (abLoopMax (fun a b c => abRun d a b false c) ms maxEval alpha beta).app
         else 0) ∧
      ∀ e ∈ tl, e.move.score = Score.fin 0 := by
  intro ms
  induction ms with
  | nil =>
    intro maxEval alpha beta stk cur n hh
    exact ⟨[], by simp [loopMaxAB, abLoopMax], by simp [abLoopMax], by simp⟩
  | cons p ms ih =>
    intro maxEval alpha beta stk cur n hh
    obtain ⟨L, hLeq, hLlen, hLsc⟩ : ∃ L,
        (if cfg.debugMode then pushTrace p.1 td (stMove p.2 ⟨stk, cur, n, hh⟩)
         else stMove p.2 ⟨stk, cur, n, hh⟩) = ⟨cur :: stk, p.2, n, hh ++ L⟩ ∧
        L.length = (if cfg.debugMode then 1 else 0) ∧
        ∀ e ∈ L, e.move.score = Score.fin 0 := by
      cases hdm : cfg.debugMode
      · exact ⟨[], by simp [stMove, hdm], by simp [hdm], by simp⟩
      · exact ⟨[⟨convertToAnalyzedMove p.1 (Score.fin 0), td, n, p.2.fen⟩],
          by simp [stMove, pushTrace, hdm], by simp [hdm],
          by simp [convertToAnalyzedMove]⟩
    obtain ⟨tl1, h1, hlen1, hsc1⟩ := IH alpha beta false (cur :: stk) p.2 n (hh ++ L)
    have hundo : stUndo ⟨cur :: stk, p.2, n + (abRun d alpha beta false p.2).cnt,
        (hh ++ L) ++ tl1⟩ =
        (⟨stk, cur, n + (abRun d alpha beta false p.2).cnt,
          (hh ++ L) ++ tl1⟩ : SearchSt) := rfl
    by_cases hcut : beta ≤ max alpha (abRun d alpha beta false p.2).val
    · refine ⟨L ++ tl1, ?_, ?_, ?_⟩
      · show loopMaxAB cfg (fun a b s => minimaxAB cfg d a b false s) td
            (p :: ms) maxEval alpha beta ⟨stk, cur, n, hh⟩ = _
        rw [loopMaxAB, hLeq, h1]
        show (if beta ≤ max alpha (abRun d alpha beta false p.2).val
            then _ else _) = _
        rw [if_pos hcut]
        rw [hundo]
        have hm : abLoopMax (fun a b c => abRun d a b false c) (p :: ms)
            maxEval alpha beta =
            ⟨max maxEval (abRun d alpha beta false p.2).val,
             (abRun d alpha beta false p.2).cnt,
             1 + (abRun d alpha beta false p.2).app,
             (abRun d alpha beta false p.2).cut + 1⟩ := by
          rw [abLoopMax]
          simp only [if_pos hcut]
        rw [hm]
        simp [List.append_assoc]
      · rw [List.length_append, hLlen, hlen1]
        have hm : abLoopMax (fun a b c => abRun d a b false c) (p :: ms)
            maxEval alpha beta =
            ⟨max maxEval (abRun d alpha beta false p.2).val,
             (abRun d alpha beta false p.2).cnt,
             1 + (abRun d alpha beta false p.2).app,
             (abRun d alpha beta false p.2).cut + 1⟩ := by
          rw [abLoopMax]
          simp only [if_pos hcut]
        rw [hm]
        cases hdm : cfg.debugMode <;> simp [hdm]
      · intro e he
        rcases List.mem_append.mp he with he | he
        · exact hLsc e he
        · exact hsc1 e he
    · obtain ⟨tl2, h2, hlen2, hsc2⟩ := ih
        (max maxEval (abRun d alpha beta false p.2).val)
        (max alpha (abRun d alpha beta false p.2).val) beta stk cur
        (n + (abRun d alpha beta false p.2).cnt) ((hh ++ L) ++ tl1)
      have hm : abLoopMax (fun a b c => abRun d a b false c) (p :: ms)
          maxEval alpha beta =
          ⟨(abLoopMax (fun a b c => abRun d a b false c) ms
              (max maxEval (abRun d alpha beta false p.2).val)
              (max alpha (abRun d alpha beta false p.2).val) beta).val,
           (abRun d alpha beta false p.2).cnt +
             (abLoopMax (fun a b c => abRun d a b false c) ms
               (max maxEval (abRun d alpha beta false p.2).val)
               (max alpha (abRun d alpha beta false p.2).val) beta).cnt,
           1 + (abRun d alpha beta false p.2).app +
             (abLoopMax (fun a b c => abRun d a b false c) ms
               (max maxEval (abRun d alpha beta false p.2).val)
               (max alpha (abRun d alpha beta false p.2).val) beta).app,
           (abRun d alpha beta false p.2).cut +
             (abLoopMax (fun a b c => abRun d a b false c) ms
               (max maxEval (abRun d alpha beta false p.2).val)
               (max alpha (abRun d alpha beta false p.2).val) beta).cut⟩ := by
        rw [abLoopMax]
        simp only [if_neg hcut]
      refine ⟨L ++ (tl1 ++ tl2), ?_, ?_, ?_⟩
      · show loopMaxAB cfg (fun a b s => minimaxAB cfg d a b false s) td
            (p :: ms) maxEval alpha beta ⟨stk, cur, n, hh⟩ = _
        rw [loopMaxAB, hLeq, h1]
        show (if beta ≤ max alpha (abRun d alpha beta false p.2).val
            then _ else _) = _
        rw [if_neg hcut]
        show loopMaxAB cfg (fun a b s => minimaxAB cfg d a b false s) td ms
            _ _ _ (stUndo _) = _
        rw [hundo, h2, hm]
        simp [Nat.add_assoc, List.append_assoc]
      · rw [List.length_append, List.length_append, hLlen, hlen1, hlen2, hm]
        cases hdm : cfg.debugMode <;> simp [hdm, Nat.add_assoc]
      · intro e he
        rcases List.mem_append.mp he with he | he
        · exact hLsc e he
        rcases List.mem_append.mp he with he | he
        · exact hsc1 e he
        · exact hsc2 e he

theorem loopMinAB_char (cfg : EngineConfig) (d td : Nat)
    (IH : ∀ (a b : Score) (m : Bool) (stk : List GameTree) (cur : GameTree)
        (n : Nat) (hh : List NodeAnalysis), ∃ tl,
      minimaxAB cfg d a b m ⟨stk, cur, n, hh⟩ =
        ((abRun d a b m cur).val,
         ⟨stk, cur, n + (abRun d a b m cur).cnt, hh ++ tl⟩) ∧
      tl.length = (if cfg.debugMode then (abRun d a b m cur).app else 0) ∧
      ∀ e ∈ tl, e.move.score = Score.fin 0) :
    ∀ (ms : List (MoveData × GameTree)) (minEval alpha beta : Score)
      (stk : List GameTree) (cur : GameTree) (n : Nat)
      (hh : List NodeAnalysis), ∃ tl,
      loopMinAB cfg (fun a b s => minimaxAB cfg d a b true s) td ms
          minEval alpha beta ⟨stk, cur, n, hh⟩ =
        ((abLoopMin (fun a b c => abRun d a b true c) ms minEval alpha beta).val,
         ⟨stk, cur,
          n + (abLoopMin (fun a b c => abRun d a b true c) ms minEval alpha beta).cnt,
          hh ++ tl⟩) ∧
      tl.length =
        (if cfg.debugMode then
          (abLoopMin (fun a b c => abRun d a b true c) ms minEval alpha beta).app
         else 0) ∧
      ∀ e ∈ tl, e.move.score = Score.fin 0 := by
  intro ms
  induction ms with
  | nil =>
    intro minEval alpha beta stk cur n hh
    exact ⟨[], by simp [loopMinAB, abLoopMin], by simp [abLoopMin], by simp⟩
  | cons p ms ih =>
    intro minEval alpha beta stk cur n hh
    obtain ⟨L, hLeq, hLlen, hLsc⟩ : ∃ L,
        (if cfg.debugMode then pushTrace p.1 td (stMove p.2 ⟨stk, cur, n, hh⟩)
         else stMove p.2 ⟨stk, cur, n, hh⟩) = ⟨cur :: stk, p.2, n, hh ++ L⟩ ∧
        L.length = (if cfg.debugMode then 1 else 0) ∧
        ∀ e ∈ L, e.move.score = Score.fin 0 := by
      cases hdm : cfg.debugMode
      · exact ⟨[], by simp [stMove, hdm], by simp [hdm], by simp⟩
      · exact ⟨[⟨convertToAnalyzedMove p.1 (Score.fin 0), td, n, p.2.fen⟩],
          by simp [stMove, pushTrace, hdm], by simp [hdm],
          by simp [convertToAnalyzedMove]⟩
    obtain ⟨tl1, h1, hlen1, hsc1⟩ := IH alpha beta true (cur :: stk) p.2 n (hh ++ L)
    have hundo : stUndo ⟨cur :: stk, p.2, n + (abRun d alpha beta true p.2).cnt,
        (hh ++ L) ++ tl1⟩ =
        (⟨stk, cur, n + (abRun d alpha beta true p.2).cnt,
          (hh ++ L) ++ tl1⟩ : SearchSt) := rfl
    by_cases hcut : min beta (abRun d alpha beta true p.2).val ≤ alpha
    · refine ⟨L ++ tl1, ?_, ?_, ?_⟩
      · show loopMinAB cfg (fun a b s => minimaxAB cfg d a b true s) td
            (p :: ms) minEval alpha beta ⟨stk, cur, n, hh⟩ = _
        rw [loopMinAB, hLeq, h1]
        show (if min beta (abRun d alpha beta true p.2).val ≤ alpha
            then _ else _) = _
        rw [if_pos hcut]
        rw [hundo]
        have hm : abLoopMin (fun a b c => abRun d a b true c) (p :: ms)
            minEval alpha beta =
            ⟨min minEval (abRun d alpha beta true p.2).val,
             (abRun d alpha beta true p.2).cnt,
             1 + (abRun d alpha beta true p.2).app,
             (abRun d alpha beta true p.2).cut + 1⟩ := by
          rw [abLoopMin]
          simp only [if_pos hcut]
        rw [hm]
        simp [List.append_assoc]
      · rw [List.length_append, hLlen, hlen1]
        have hm : abLoopMin (fun a b c => abRun d a b true c) (p :: ms)
            minEval alpha beta =
            ⟨min minEval (abRun d alpha beta true p.2).val,
             (abRun d alpha beta true p.2).cnt,
             1 + (abRun d alpha beta true p.2).app,
             (abRun d alpha beta true p.2).cut + 1⟩ := by
          rw [abLoopMin]
          simp only [if_pos hcut]
        rw [hm]
        cases hdm : cfg.debugMode <;> simp [hdm]
      · intro e he
        rcases List.mem_append.mp he with he | he
        · exact hLsc e he
        · exact hsc1 e he
    · obtain ⟨tl2, h2, hlen2, hsc2⟩ := ih
        (min minEval (abRun d alpha beta true p.2).val) alpha
        (min beta (abRun d alpha beta true p.2).val) stk cur
        (n + (abRun d alpha beta true p.2).cnt) ((hh ++ L) ++ tl1)
      have hm : abLoopMin (fun a b c => abRun d a b true c) (p :: ms)
          minEval alpha beta =
          ⟨(abLoopMin (fun a b c => abRun d a b true c) ms
              (min minEval (abRun d alpha beta true p.2).val) alpha
              (min beta (abRun d alpha beta true p.2).val)).val,
           (abRun d alpha beta true p.2).cnt +
             (abLoopMin (fun a b c => abRun d a b true c) ms
               (min minEval (abRun d alpha beta true p.2).val) alpha
               (min beta (abRun d alpha beta true p.2).val)).cnt,
           1 + (abRun d alpha beta true p.2).app +
             (abLoopMin (fun a b c => abRun d a b true c) ms
               (min minEval (abRun d alpha beta true p.2).val) alpha
               (min beta (abRun d alpha beta true p.2).val)).app,
           (abRun d alpha beta true p.2).cut +
             (abLoopMin (fun a b c => abRun d a b true c) ms
               (min minEval (abRun d alpha beta true p.2).val) alpha
               (min beta (abRun d alpha beta true p.2).val)).cut⟩ := by
        rw [abLoopMin]
        simp only [if_neg hcut]
      refine ⟨L ++ (tl1 ++ tl2), ?_, ?_, ?_⟩
      · show loopMinAB cfg (fun a b s => minimaxAB cfg d a b true s) td
            (p :: ms) minEval alpha beta ⟨stk, cur, n, hh⟩ = _
        rw [loopMinAB, hLeq, h1]
        show (if min beta (abRun d alpha beta true p.2).val ≤ alpha
            then _ else _) = _
        rw [if_neg hcut]
        show loopMinAB cfg (fun a b s => minimaxAB cfg d a b true s) td ms
            _ _ _ (stUndo _) = _
        rw [hundo, h2, hm]
        simp [Nat.add_assoc, List.append_assoc]
      · rw [List.length_append, List.length_append, hLlen, hlen1, hlen2, hm]
        cases hdm : cfg.debugMode <;> simp [hdm, Nat.add_assoc]
      · intro e he
        rcases List.mem_append.mp he with he | he
        · exact hLsc e he
        rcases List.mem_append.mp he with he | he
        · exact hsc1 e he
        · exact hsc2 e he

/-- Characterization of one pruned `minimax` call in terms of `abRun`. -/
theorem minimaxAB_char (cfg : EngineConfig) :
    ∀ (d : Nat) (a b : Score) (m : Bool) (stk : List GameTree) (cur : GameTree)
      (n : Nat) (hh : List NodeAnalysis), ∃ tl,
      minimaxAB cfg d a b m ⟨stk, cur, n, hh⟩ =
        ((abRun d a b m cur).val,
         ⟨stk, cur, n + (abRun d a b m cur).cnt, hh ++ tl⟩) ∧
      tl.length = (if cfg.debugMode then (abRun d a b m cur).app else 0) ∧
      ∀ e ∈ tl, e.move.score = Score.fin 0 := by
  intro d
  induction d with
  | zero =>
    intro a b m stk cur n hh
    exact ⟨[], by simp [minimaxAB_zero, minimaxBodyAB, incNodes, abRun_zero],
      by simp [abRun_zero], by simp⟩
  | succ d ihd =>
    intro a b m stk cur n hh
    by_cases hlen : cur.children.length = 0
    · refine ⟨[], ?_, by simp [abRun_succ, hlen], by simp⟩
      simp [minimaxAB_succ, minimaxBodyAB, incNodes, hlen, abRun_succ]
    · by_cases hm : m
      · subst hm
        obtain ⟨tl, h1, h2, h3⟩ := loopMaxAB_char cfg d (cfg.depth - (d + 1)) ihd
          cur.children Score.negInf a b stk cur (n + 1) hh
        refine ⟨tl, ?_, ?_, h3⟩
        · rw [minimaxAB_succ]
          show minimaxBodyAB cfg (minimaxAB cfg d) (d + 1) a b true
            ⟨stk, cur, n, hh⟩ = _
          simp only [minimaxBodyAB, incNodes, Nat.succ_ne_zero, if_false, hlen,
            if_true]
          rw [h1]
          rw [abRun_succ]
          simp [hlen, Nat.add_assoc, Nat.add_comm 1]
        · rw [h2, abRun_succ]
          simp [hlen]
      · simp only [Bool.not_eq_true] at hm
        subst hm
        obtain ⟨tl, h1, h2, h3⟩ := loopMinAB_char cfg d (cfg.depth - (d + 1)) ihd
          cur.children Score.posInf a b stk cur (n + 1) hh
        refine ⟨tl, ?_, ?_, h3⟩
        · rw [minimaxAB_succ]
          show minimaxBodyAB cfg (minimaxAB cfg d) (d + 1) a b false
            ⟨stk, cur, n, hh⟩ = _
          simp only [minimaxBodyAB, incNodes, Nat.succ_ne_zero, if_false, hlen,
            if_true, Bool.false_eq_true]
          rw [h1]
          rw [abRun_succ]
          simp [hlen, Nat.add_assoc, Nat.add_comm 1]
        · rw [h2, abRun_succ]
          simp [hlen]

theorem rootLoopAB_char (cfg : EngineConfig) :
    ∀ (ms : List (MoveData × GameTree)) (acc : List AnalyzedMove)
      (best : Option AnalyzedMove) (bv : Score) (stk : List GameTree)
      (cur : GameTree) (n : Nat) (hh : List NodeAnalysis), ∃ tl,
      rootLoopAB cfg ms acc best bv ⟨stk, cur, n, hh⟩ =
        (acc ++ ms.map (fun p => convertToAnalyzedMove p.1
           ((abRun (cfg.depth - 1) Score.negInf Score.posInf false p.2).val)),
         selMax (ms.map (fun p => convertToAnalyzedMove p.1
           ((abRun (cfg.depth - 1) Score.negInf Score.posInf false p.2).val)))
           best bv,
         ⟨stk, cur,
          n + (ms.map (fun p =>
            (abRun (cfg.depth - 1) Score.negInf Score.posInf false p.2).cnt)).sum,
          hh ++ tl⟩) ∧
      tl.length =
        (if cfg.debugMode then
          (ms.map (fun p =>
            (abRun (cfg.depth - 1) Score.negInf Score.posInf false p.2).app)).sum
         else 0) ∧
      ∀ e ∈ tl, e.move.score = Score.fin 0 := by
  intro ms
  induction ms with
  | nil =>
    intro acc best bv stk cur n hh
    exact ⟨[], by simp [rootLoopAB, selMax], by simp, by simp⟩
  | cons p ms ih =>
    intro acc best bv stk cur n hh
    obtain ⟨tl1, h1, hlen1, hsc1⟩ := minimaxAB_char cfg (cfg.depth - 1)
      Score.negInf Score.posInf false (cur :: stk) p.2 n hh
    have hundo : stUndo ⟨cur :: stk, p.2,
        n + (abRun (cfg.depth - 1) Score.negInf Score.posInf false p.2).cnt,
        hh ++ tl1⟩ =
        (⟨stk, cur,
          n + (abRun (cfg.depth - 1) Score.negInf Score.posInf false p.2).cnt,
          hh ++ tl1⟩ : SearchSt) := rfl
    by_cases hlt : bv <
        (abRun (cfg.depth - 1) Score.negInf Score.posInf false p.2).val
    · obtain ⟨tl2, h2, hlen2, hsc2⟩ := ih
        (acc ++ [convertToAnalyzedMove p.1
          ((abRun (cfg.depth - 1) Score.negInf Score.posInf false p.2).val)])
        (some (convertToAnalyzedMove p.1
          ((abRun (cfg.depth - 1) Score.negInf Score.posInf false p.2).val)))
        ((abRun (cfg.depth - 1) Score.negInf Score.posInf false p.2).val)
        stk cur
        (n + (abRun (cfg.depth - 1) Score.negInf Score.posInf false p.2).cnt)
        (hh ++ tl1)
      refine ⟨tl1 ++ tl2, ?_, ?_, ?_⟩
      · show rootLoopAB cfg (p :: ms) acc best bv ⟨stk, cur, n, hh⟩ = _
        rw [rootLoopAB]
        show (if bv < (minimaxAB cfg (cfg.depth - 1) Score.negInf Score.posInf
            false (stMove p.2 ⟨stk, cur, n, hh⟩)).1 then _ else _) = _
        rw [show stMove p.2 ⟨stk, cur, n, hh⟩ =
          (⟨cur :: stk, p.2, n, hh⟩ : SearchSt) from rfl, h1]
        show (if bv < (abRun (cfg.depth - 1) Score.negInf Score.posInf false
            p.2).val then _ else _) = _
        rw [if_pos hlt]
        show rootLoopAB cfg ms _ _ _ (stUndo _) = _
        rw [hundo, h2]
        simp [selMax, convertToAnalyzedMove, hlt, Nat.add_assoc,
          List.append_assoc]
      · rw [List.length_append, hlen1, hlen2]
        cases hdm : cfg.debugMode <;> simp [hdm]
      · intro e he
        rcases List.mem_append.mp he with he | he
        · exact hsc1 e he
        · exact hsc2 e he
    · obtain ⟨tl2, h2, hlen2, hsc2⟩ := ih
        (acc ++ [convertToAnalyzedMove p.1
          ((abRun (cfg.depth - 1) Score.negInf Score.posInf false p.2).val)])
        best bv stk cur
        (n + (abRun (cfg.depth - 1) Score.negInf Score.posInf false p.2).cnt)
        (hh ++ tl1)
      refine ⟨tl1 ++ tl2, ?_, ?_, ?_⟩
      · show rootLoopAB cfg (p :: ms) acc best bv ⟨stk, cur, n, hh⟩ = _
        rw [rootLoopAB]
        show (if bv < (minimaxAB cfg (cfg.depth - 1) Score.negInf Score.posInf
            false (stMove p.2 ⟨stk, cur, n, hh⟩)).1 then _ else _) = _
        rw [show stMove p.2 ⟨stk, cur, n, hh⟩ =
          (⟨cur :: stk, p.2, n, hh⟩ : SearchSt) from rfl, h1]
        show (if bv < (abRun (cfg.depth - 1) Score.negInf Score.posInf false
            p.2).val then _ else _) = _
        rw [if_neg hlt]
        show rootLoopAB cfg ms _ _ _ (stUndo _) = _
        rw [hundo, h2]
        simp [selMax, convertToAnalyzedMove, hlt, Nat.add_assoc,
          List.append_assoc]
      · rw [List.length_append, hlen1, hlen2]
        cases hdm : cfg.debugMode <;> simp [hdm]
      · intro e he
        rcases List.mem_append.mp he with he | he
        · exact hsc1 e he
        · exact hsc2 e he

/-- Characterization of the whole pruned-engine `findBestMove` call in terms
of the pure mirrors. -/
theorem abFind_char (t : GameTree) (cfg : EngineConfig) : ∃ tl,
    MinimaxAlphaBetaEngine.findBestMove t cfg =
      ({ bestMove := selMax (rootListAB cfg t) none Score.negInf,
         analysis := (sortDesc (rootListAB cfg t)).take 50,
         nodesEvaluated := rootCntAB cfg t,
         nodeHistory := tl },
       ⟨[], t, rootCntAB cfg t, tl⟩) ∧
    tl.length = (if cfg.debugMode then rootAppAB cfg t else 0) ∧
    ∀ e ∈ tl, e.move.score = Score.fin 0 := by
  obtain ⟨tl, h1, h2, h3⟩ :=
    rootLoopAB_char cfg t.children [] none Score.negInf [] t 0 []
  refine ⟨tl, ?_, ?_, h3⟩
  · simp only [MinimaxAlphaBetaEngine.findBestMove]
    rw [h1]
    simp [rootListAB, rootCntAB]
  · rw [h2]
    cases hdm : cfg.debugMode <;> simp [hdm, rootAppAB]

/-!
Properties of the stable descending sort and of the best-move tracking
folds.
-/

theorem insertDesc_perm (a : AnalyzedMove) (l : List AnalyzedMove) :
    (insertDesc a l).Perm (a :: l) := by
  induction l with
  | nil => simp [insertDesc]
  | cons b l ih =>
    by_cases hab : a.score < b.score
    · rw [insertDesc, if_pos hab]
      exact (ih.cons b).trans (List.Perm.swap a b l)
    · rw [insertDesc, if_neg hab]

theorem sortDesc_perm (l : List AnalyzedMove) : (sortDesc l).Perm l := by
  induction l with
  | nil => simp [sortDesc]
  | cons a l ih => exact (insertDesc_perm a (sortDesc l)).trans (ih.cons a)

theorem sortDesc_length (l : List AnalyzedMove) :
    (sortDesc l).length = l.length := (sortDesc_perm l).length_eq

theorem insertDesc_pairwise (a : AnalyzedMove) (l : List AnalyzedMove)
    (h : l.Pairwise (fun x y => y.score ≤ x.score)) :
    (insertDesc a l).Pairwise (fun x y => y.score ≤ x.score) := by
  induction l with
  | nil => simp [insertDesc]
  | cons b l ih =>
    rw [List.pairwise_cons] at h
    by_cases hab : a.score < b.score
    · rw [insertDesc, if_pos hab]
      rw [List.pairwise_cons]
      constructor
      · intro x hx
        rcases List.mem_cons.mp ((insertDesc_perm a l).mem_iff.mp hx) with hx | hx
        · subst hx; exact le_of_lt hab
        · exact h.1 x hx
      · exact ih h.2
    · rw [insertDesc, if_neg hab]
      rw [List.pairwise_cons]
      constructor
      · intro x hx
        rcases List.mem_cons.mp hx with hx | hx
        · subst hx; exact not_lt.mp hab
        · exact le_trans (h.1 x hx) (not_lt.mp hab)
      · exact List.pairwise_cons.mpr h

theorem sortDesc_pairwise (l : List AnalyzedMove) :
    (sortDesc l).Pairwise (fun x y => y.score ≤ x.score) := by
  induction l with
  | nil => simp [sortDesc]
  | cons a l ih => exact insertDesc_pairwise a (sortDesc l) ih

/-- Stability of the insertion step: filtering at any fixed score value is
unchanged, because an element is only moved past elements of strictly greater
score. -/
theorem insertDesc_filter (s : Score) (a : AnalyzedMove) :
    ∀ l : List AnalyzedMove,
      (insertDesc a l).filter (fun x => x.score == s) =
        (a :: l).filter (fun x => x.score == s) := by
  intro l
  induction l with
  | nil => rfl
  | cons b l ih =>
    by_cases hab : a.score < b.score
    · rw [insertDesc, if_pos hab]
      by_cases hbs : b.score = s
      · have has : ¬(a.score = s) := fun h => absurd hab (by rw [h, hbs]; exact lt_irrefl s)
        simp only [List.filter_cons, hbs, has, beq_iff_eq, if_true, if_false,
          decide_eq_true_eq]
        rw [show (insertDesc a l).filter (fun x => x.score == s) =
          (a :: l).filter (fun x => x.score == s) from ih]
        simp [has]
      · simp only [List.filter_cons, beq_iff_eq, hbs, decide_eq_true_eq,
          if_false]
        rw [show (insertDesc a l).filter (fun x => x.score == s) =
          (a :: l).filter (fun x => x.score == s) from ih]
        by_cases has : a.score = s <;> simp [has, hbs]
    · rw [insertDesc, if_neg hab]

/-- Stability of the sort: ties (equal scores) keep their relative input
order, expressed as invariance of every equal-score fiber. -/
theorem sortDesc_filter (s : Score) (l : List AnalyzedMove) :
    (sortDesc l).filter (fun x => x.score == s) =
      l.filter (fun x => x.score == s) := by
  induction l with
  | nil => rfl
  | cons a l ih =>
    rw [sortDesc, insertDesc_filter s a (sortDesc l)]
    simp only [List.filter_cons]
    rw [ih]

theorem le_foldl_max (l : List Score) : ∀ acc : Score, acc ≤ l.foldl max acc := by
  induction l with
  | nil => intro acc; simp
  | cons a l ih =>
    intro acc
    rw [List.foldl_cons]
    exact le_trans (le_max_left acc a) (ih (max acc a))

theorem mem_le_foldl_max (l : List Score) :
    ∀ (acc s : Score), s ∈ l → s ≤ l.foldl max acc := by
  induction l with
  | nil => intro acc s h; simp at h
  | cons a l ih =>
    intro acc s h
    rcases List.mem_cons.mp h with h | h
    · subst h
      exact le_trans (le_max_right acc s) (le_foldl_max l (max acc s))
    · exact ih (max acc a) s h

theorem foldl_max_le_iff (l : List Score) :
    ∀ (acc x : Score), l.foldl max acc ≤ x ↔ acc ≤ x ∧ ∀ s ∈ l, s ≤ x := by
  induction l with
  | nil => intro acc x; simp
  | cons a l ih =>
    intro acc x
    rw [List.foldl_cons, ih (max acc a) x, max_le_iff]
    constructor
    · rintro ⟨⟨h1, h2⟩, h3⟩
      exact ⟨h1, fun s hs => by
        rcases List.mem_cons.mp hs with hs | hs
        · subst hs; exact h2
        · exact h3 s hs⟩
    · rintro ⟨h1, h2⟩
      exact ⟨⟨h1, h2 a (List.mem_cons_self a l)⟩,
        fun s hs => h2 s (List.mem_cons_of_mem a hs)⟩

/-- Characterization of the `value > bestValue` tracking fold: if no score
ever exceeds the running best it returns the incoming candidate; otherwise it
returns the first element attaining the maximum. -/
theorem selMax_spec : ∀ (l : List AnalyzedMove) (best : Option AnalyzedMove)
    (bv : Score),
    ((l.map (fun a => a.score)).foldl max bv ≤ bv → selMax l best bv = best) ∧
    (bv < (l.map (fun a => a.score)).foldl max bv →
      selMax l best bv = (l.filter (fun a =>
        a.score == (l.map (fun a => a.score)).foldl max bv)).head?) := by
  intro l
  induction l with
  | nil =>
    intro best bv
    exact ⟨fun _ => rfl, fun h => absurd h (lt_irrefl bv)⟩
  | cons a l ih =>
    intro best bv
    by_cases hba : bv < a.score
    · have hsel : selMax (a :: l) best bv = selMax l (some a) a.score := by
        rw [selMax, if_pos hba]
      have hmax : max bv a.score = a.score := max_eq_right (le_of_lt hba)
      have hM : ((a :: l).map (fun a => a.score)).foldl max bv =
          (l.map (fun a => a.score)).foldl max a.score := by
        rw [List.map_cons, List.foldl_cons, hmax]
      constructor
      · intro h
        exfalso
        rw [hM] at h
        exact absurd (le_trans (le_foldl_max _ a.score) h) (not_le.mpr hba)
      · intro _
        rw [hsel, hM]
        by_cases h1 : (l.map (fun a => a.score)).foldl max a.score ≤ a.score
        · have hMa : (l.map (fun a => a.score)).foldl max a.score = a.score :=
            le_antisymm h1 (le_foldl_max _ a.score)
          rw [(ih (some a) a.score).1 h1, hMa]
          simp [List.filter_cons]
        · have hlt : a.score < (l.map (fun a => a.score)).foldl max a.score :=
            not_le.mp h1
          rw [(ih (some a) a.score).2 hlt]
          have hne : ¬(a.score =
              (l.map (fun a => a.score)).foldl max a.score) := ne_of_lt hlt
          simp [List.filter_cons, hne]
    · have hsel : selMax (a :: l) best bv = selMax l best bv := by
        rw [selMax, if_neg hba]
      have hmax : max bv a.score = bv := max_eq_left (not_lt.mp hba)
      have hM : ((a :: l).map (fun a => a.score)).foldl max bv =
          (l.map (fun a => a.score)).foldl max bv := by
        rw [List.map_cons, List.foldl_cons, hmax]
      constructor
      · intro h
        rw [hM] at h
        rw [hsel]
        exact (ih best bv).1 h
      · intro h
        rw [hM] at h
        rw [hsel, hM, (ih best bv).2 h]
        have hne : ¬(a.score = (l.map (fun a => a.score)).foldl max bv) :=
          fun hc => absurd h (by rw [← hc]; exact not_lt.mpr (not_lt.mp hba))
        simp [List.filter_cons, hne]

/-- The `value < bestValue` fold of the plain engine's Black branch never
updates from its `-Infinity` start. -/
theorem selMin_bot : ∀ (l : List AnalyzedMove) (best : Option AnalyzedMove),
    selMin l best Score.negInf = best := by
  intro l
  induction l with
  | nil => intro best; rfl
  | cons a l ih =>
    intro best
    rw [selMin, if_neg (not_lt.mpr (Score.bot_le a.score))]
    exact ih best

theorem head?_take_succ (n : Nat) (l : List AnalyzedMove) :
    (l.take (n + 1)).head? = l.head? := by
  cases l <;> rfl

/-- The head of the stable descending sort is the first input element whose
score attains the maximum. -/
theorem sortDesc_head_max (l : List AnalyzedMove) (hl : l ≠ []) :
    (sortDesc l).head? = (l.filter (fun a =>
      a.score == (l.map (fun a => a.score)).foldl max Score.negInf)).head? := by
  obtain ⟨x, xs, hx⟩ : ∃ x xs, sortDesc l = x :: xs := by
    cases hsd : sortDesc l with
    | nil =>
      exfalso
      have := sortDesc_length l
      rw [hsd] at this
      exact hl (List.length_eq_zero.mp this.symm)
    | cons x xs => exact ⟨x, xs, rfl⟩
  have hperm := sortDesc_perm l
  have hxmem : x ∈ l := hperm.mem_iff.mp (by rw [hx]; exact List.mem_cons_self x xs)
  have hpw := sortDesc_pairwise l
  rw [hx] at hpw
  rw [List.pairwise_cons] at hpw
  have hxM : x.score = (l.map (fun a => a.score)).foldl max Score.negInf := by
    refine le_antisymm ?_ ?_
    · exact mem_le_foldl_max _ _ _ (List.mem_map_of_mem (fun a => a.score) hxmem)
    · rw [foldl_max_le_iff]
      refine ⟨Score.bot_le _, ?_⟩
      intro s hs
      rcases List.mem_map.mp hs with ⟨y, hy, hys⟩
      subst hys
      have hy' : y ∈ x :: xs := by
        rw [← hx]
        exact hperm.mem_iff.mpr hy
      rcases List.mem_cons.mp hy' with h | h
      · subst h; exact le_refl _
      · exact hpw.1 y h
  have hfilt := sortDesc_filter
    ((l.map (fun a => a.score)).foldl max Score.negInf) l
  rw [← hfilt, hx, List.filter_cons,
    if_pos (by simp [← hxM] : (x.score ==
      (l.map (fun a => a.score)).foldl max Score.negInf) = true)]
  rfl

/-!
Claim theorems.
-/

/-- Claim C4: for every position and configuration and either engine, after
`findBestMove` returns, the borrowed position handle is exactly where it
started — same undo stack, same current position, hence the same serialized
FEN snapshot as before the call: every applied move was undone on every
path, including paths cut short by an alpha-beta cutoff. -/
theorem c4_position_restored (t : GameTree) (cfg : EngineConfig) :
    (MinimaxEngine.findBestMove t cfg).2.cur = t ∧
    (MinimaxEngine.findBestMove t cfg).2.stack = [] ∧
    (MinimaxEngine.findBestMove t cfg).2.cur.fen = t.fen ∧
    (MinimaxAlphaBetaEngine.findBestMove t cfg).2.cur = t ∧
    (MinimaxAlphaBetaEngine.findBestMove t cfg).2.stack = [] ∧
    (MinimaxAlphaBetaEngine.findBestMove t cfg).2.cur.fen = t.fen := by
  obtain ⟨tl, h, _, _⟩ := plainFind_char t cfg
  obtain ⟨tl2, h2, _, _⟩ := abFind_char t cfg
  refine ⟨by rw [h], by rw [h], by rw [h], by rw [h2], by rw [h2], by rw [h2]⟩

/-- Claim C6: for both engines the returned `analysis` has exactly
`min 50 (number of legal root moves)` entries, is (as a multiset) contained
in the per-root-move scored list — so never adds or duplicates entries —
preserves distinctness, and below the 50-entry cap is exactly a permutation
of that list (one entry per distinct legal root move). -/
theorem c6_analysis_bounded (t : GameTree) (cfg : EngineConfig) :
    ((MinimaxEngine.findBestMove t cfg).1.analysis.length =
      min 50 t.children.length) ∧
    ((MinimaxAlphaBetaEngine.findBestMove t cfg).1.analysis.length =
      min 50 t.children.length) ∧
    (List.Subperm (MinimaxEngine.findBestMove t cfg).1.analysis
      (rootListM cfg t)) ∧
    (List.Subperm (MinimaxAlphaBetaEngine.findBestMove t cfg).1.analysis
      (rootListAB cfg t)) ∧
    ((rootListM cfg t).Nodup →
      (MinimaxEngine.findBestMove t cfg).1.analysis.Nodup) ∧
    ((rootListAB cfg t).Nodup →
      (MinimaxAlphaBetaEngine.findBestMove t cfg).1.analysis.Nodup) ∧
    (t.children.length ≤ 50 →
      ((MinimaxEngine.findBestMove t cfg).1.analysis).Perm (rootListM cfg t) ∧
      ((MinimaxAlphaBetaEngine.findBestMove t cfg).1.analysis).Perm
        (rootListAB cfg t)) := by
  obtain ⟨tl, h, _, _⟩ := plainFind_char t cfg
  obtain ⟨tl2, h2, _, _⟩ := abFind_char t cfg
  have hA : (MinimaxEngine.findBestMove t cfg).1.analysis =
      (sortDesc (rootListM cfg t)).take 50 := by rw [h]
  have hA2 : (MinimaxAlphaBetaEngine.findBestMove t cfg).1.analysis =
      (sortDesc (rootListAB cfg t)).take 50 := by rw [h2]
  have hlenM : (rootListM cfg t).length = t.children.length := by
    simp [rootListM]
  have hlenAB : (rootListAB cfg t).length = t.children.length := by
    simp [rootListAB]
  refine ⟨?_, ?_, ?_, ?_, ?_, ?_, ?_⟩
  · rw [hA, List.length_take, sortDesc_length, hlenM]
  · rw [hA2, List.length_take, sortDesc_length, hlenAB]
  · rw [hA]
    exact ((List.take_sublist 50 _).subperm).trans (sortDesc_perm _).subperm
  · rw [hA2]
    exact ((List.take_sublist 50 _).subperm).trans (sortDesc_perm _).subperm
  · intro hnd
    rw [hA]
    exact List.Nodup.sublist (List.take_sublist _ _)
      ((sortDesc_perm _).nodup_iff.mpr hnd)
  · intro hnd
    rw [hA2]
    exact List.Nodup.sublist (List.take_sublist _ _)
      ((sortDesc_perm _).nodup_iff.mpr hnd)
  · intro hle
    constructor
    · rw [hA, List.take_of_length_le (by rw [sortDesc_length, hlenM]; exact hle)]
      exact sortDesc_perm _
    · rw [hA2, List.take_of_length_le (by rw [sortDesc_length, hlenAB]; exact hle)]
      exact sortDesc_perm _

/-- Witness for C6 at a concrete input: a two-move position at depth 1. -/
theorem c6_witness :
    ((MinimaxEngine.findBestMove tC6w cfgD1).1.analysis).Perm
      (rootListM cfgD1 tC6w) ∧
    ((MinimaxAlphaBetaEngine.findBestMove tC6w cfgD1).1.analysis).Perm
      (rootListAB cfgD1 tC6w) :=
  (c6_analysis_bounded tC6w cfgD1).2.2.2.2.2.2 (by decide)

/-- Claim C7: for both engines the returned `analysis` is the 50-entry
truncation of the stable descending sort of the generation-order scored root
list; in particular adjacent scores are non-increasing (also among `±Infinity`
sentinels, which the JavaScript comparator ties correctly via the NaN → +0
rule), and entries of equal score keep their relative generation order (every
equal-score fiber of the sort equals that of the input). -/
theorem c7_sorted_stable (t : GameTree) (cfg : EngineConfig) :
    ((MinimaxEngine.findBestMove t cfg).1.analysis =
      (sortDesc (rootListM cfg t)).take 50) ∧
    ((MinimaxEngine.findBestMove t cfg).1.analysis.Pairwise
      (fun x y => y.score ≤ x.score)) ∧
    (∀ s : Score, (sortDesc (rootListM cfg t)).filter (fun a => a.score == s) =
      (rootListM cfg t).filter (fun a => a.score == s)) ∧
    ((MinimaxAlphaBetaEngine.findBestMove t cfg).1.analysis =
      (sortDesc (rootListAB cfg t)).take 50) ∧
    ((MinimaxAlphaBetaEngine.findBestMove t cfg).1.analysis.Pairwise
      (fun x y => y.score ≤ x.score)) ∧
    (∀ s : Score, (sortDesc (rootListAB cfg t)).filter (fun a => a.score == s) =
      (rootListAB cfg t).filter (fun a => a.score == s)) := by
  obtain ⟨tl, h, _, _⟩ := plainFind_char t cfg
  obtain ⟨tl2, h2, _, _⟩ := abFind_char t cfg
  have hA : (MinimaxEngine.findBestMove t cfg).1.analysis =
      (sortDesc (rootListM cfg t)).take 50 := by rw [h]
  have hA2 : (MinimaxAlphaBetaEngine.findBestMove t cfg).1.analysis =
      (sortDesc (rootListAB cfg t)).take 50 := by rw [h2]
  refine ⟨hA, ?_, fun s => sortDesc_filter s _, hA2, ?_, fun s => sortDesc_filter s _⟩
  · rw [hA]
    exact List.Pairwise.sublist (List.take_sublist _ _) (sortDesc_pairwise _)
  · rw [hA2]
    exact List.Pairwise.sublist (List.take_sublist _ _) (sortDesc_pairwise _)

/-- Claim C2 (code bug): at a Black-to-move position with two legal moves
(depth 1), the plain engine returns `bestMove = none` even though legal moves
exist and were analyzed — its Black branch compares `value < bestValue`
against a `bestValue` initialized to `-Infinity`, which never fires. -/
theorem c2_plain_black_bestmove_none :
    tC2.children.length = 2 ∧
    (MinimaxEngine.findBestMove tC2 cfgD1).1.analysis.length = 2 ∧
    (MinimaxEngine.findBestMove tC2 cfgD1).1.bestMove = none := by
  refine ⟨by decide, by decide, by decide⟩

/-- Claim C8, amended: the trace is empty when `debugMode` is false; when it
is true its length equals the number of non-root `applyMove` calls —
root-level move applications are applied in the root driver loop, which never
pushes a trace entry, so they are not counted. -/
theorem c8_trace_length (t : GameTree) (cfg : EngineConfig) :
    ((MinimaxEngine.findBestMove t cfg).1.nodeHistory.length =
      (if cfg.debugMode then rootAppM cfg t else 0)) ∧
    ((MinimaxAlphaBetaEngine.findBestMove t cfg).1.nodeHistory.length =
      (if cfg.debugMode then rootAppAB cfg t else 0)) ∧
    (cfg.debugMode = false →
      (MinimaxEngine.findBestMove t cfg).1.nodeHistory = [] ∧
      (MinimaxAlphaBetaEngine.findBestMove t cfg).1.nodeHistory = []) := by
  obtain ⟨tl, h, hlen, _⟩ := plainFind_char t cfg
  obtain ⟨tl2, h2, hlen2, _⟩ := abFind_char t cfg
  have hH : (MinimaxEngine.findBestMove t cfg).1.nodeHistory = tl := by rw [h]
  have hH2 : (MinimaxAlphaBetaEngine.findBestMove t cfg).1.nodeHistory = tl2 := by
    rw [h2]
  refine ⟨by rw [hH, hlen], by rw [hH2, hlen2], ?_⟩
  intro hdm
  rw [hdm] at hlen hlen2
  simp only [if_false, Bool.false_eq_true] at hlen hlen2
  exact ⟨by rw [hH]; exact List.length_eq_zero.mp hlen,
    by rw [hH2]; exact List.length_eq_zero.mp hlen2⟩

/-- Counterexample to C8 as stated: in debug mode at depth 2 on a one-line
position, the search applies 2 moves (one at root level, one below) but the
trace has only 1 entry — `nodeTrace.length` does not equal the total
`applyMove` call count. -/
theorem c8_counterexample :
    cfgD2dbg.debugMode = true ∧
    (MinimaxEngine.findBestMove tC8x cfgD2dbg).1.nodeHistory.length = 1 ∧
    totalApplyCallsM cfgD2dbg tC8x = 2 := by
  refine ⟨rfl, by decide, by decide⟩

/-- Witness for C8 at a concrete input with `debugMode = false`. -/
theorem c8_witness :
    (MinimaxEngine.findBestMove tC8w cfgD2).1.nodeHistory = [] ∧
    (MinimaxAlphaBetaEngine.findBestMove tC8w cfgD2).1.nodeHistory = [] :=
  (c8_trace_length tC8w cfgD2).2.2 rfl

/-- Claim C9: whenever either engine returns a non-null `bestMove`, it is
exactly the first element of the returned (sorted, truncated) `analysis`
list. -/
theorem c9_best_is_head (t : GameTree) (cfg : EngineConfig) (bm : AnalyzedMove) :
    ((MinimaxEngine.findBestMove t cfg).1.bestMove = some bm →
      (MinimaxEngine.findBestMove t cfg).1.analysis.head? = some bm) ∧
    ((MinimaxAlphaBetaEngine.findBestMove t cfg).1.bestMove = some bm →
      (MinimaxAlphaBetaEngine.findBestMove t cfg).1.analysis.head? = some bm) := by
  obtain ⟨tl, h, _, _⟩ := plainFind_char t cfg
  obtain ⟨tl2, h2, _, _⟩ := abFind_char t cfg
  have hB : (MinimaxEngine.findBestMove t cfg).1.bestMove =
      (if t.turnWhite then selMax (rootListM cfg t) none Score.negInf
       else selMin (rootListM cfg t) none Score.negInf) := by rw [h]
  have hA : (MinimaxEngine.findBestMove t cfg).1.analysis =
      (sortDesc (rootListM cfg t)).take 50 := by rw [h]
  have hB2 : (MinimaxAlphaBetaEngine.findBestMove t cfg).1.bestMove =
      selMax (rootListAB cfg t) none Score.negInf := by rw [h2]
  have hA2 : (MinimaxAlphaBetaEngine.findBestMove t cfg).1.analysis =
      (sortDesc (rootListAB cfg t)).take 50 := by rw [h2]
  constructor
  · intro hbm
    rw [hB] at hbm
    by_cases hw : t.turnWhite
    · rw [if_pos hw] at hbm
      rcases selMax_spec (rootListM cfg t) none Score.negInf with ⟨hs1, hs2⟩
      by_cases hM : ((rootListM cfg t).map (fun a => a.score)).foldl max
          Score.negInf ≤ Score.negInf
      · rw [hs1 hM] at hbm
        exact absurd hbm (by simp)
      · rw [hs2 (not_le.mp hM)] at hbm
        have hrlne : rootListM cfg t ≠ [] := by
          intro hnil
          rw [hnil] at hbm
          simp at hbm
        rw [hA, show (50 : Nat) = 49 + 1 from rfl, head?_take_succ,
          sortDesc_head_max _ hrlne]
        exact hbm
    · rw [if_neg hw, selMin_bot] at hbm
      exact absurd hbm (by simp)
  · intro hbm
    rw [hB2] at hbm
    rcases selMax_spec (rootListAB cfg t) none Score.negInf with ⟨hs1, hs2⟩
    by_cases hM : ((rootListAB cfg t).map (fun a => a.score)).foldl max
        Score.negInf ≤ Score.negInf
    · rw [hs1 hM] at hbm
      exact absurd hbm (by simp)
    · rw [hs2 (not_le.mp hM)] at hbm
      have hrlne : rootListAB cfg t ≠ [] := by
        intro hnil
        rw [hnil] at hbm
        simp at hbm
      rw [hA2, show (50 : Nat) = 49 + 1 from rfl, head?_take_succ,
        sortDesc_head_max _ hrlne]
      exact hbm

/-- Witness for C9 at a concrete input whose second-generated root move wins. -/
theorem c9_witness :
    (MinimaxEngine.findBestMove tC9w cfgD1).1.analysis.head? = some bmC9 ∧
    (MinimaxAlphaBetaEngine.findBestMove tC9w cfgD1).1.analysis.head? =
      some bmC9 :=
  ⟨(c9_best_is_head tC9w cfgD1 bmC9).1 (by decide),
   (c9_best_is_head tC9w cfgD1 bmC9).2 (by decide)⟩

/-- Claim C10: every NodeTrace entry records its move with a score of 0 (the
engines call `convertToAnalyzedMove(move, 0)` when pushing), never the value
later computed for that subtree. -/
theorem c10_trace_scores_zero (t : GameTree) (cfg : EngineConfig) :
    (∀ e ∈ (MinimaxEngine.findBestMove t cfg).1.nodeHistory,
      e.move.score = Score.fin 0) ∧
    (∀ e ∈ (MinimaxAlphaBetaEngine.findBestMove t cfg).1.nodeHistory,
      e.move.score = Score.fin 0) := by
  obtain ⟨tl, h, _, hsc⟩ := plainFind_char t cfg
  obtain ⟨tl2, h2, _, hsc2⟩ := abFind_char t cfg
  have hH : (MinimaxEngine.findBestMove t cfg).1.nodeHistory = tl := by rw [h]
  have hH2 : (MinimaxAlphaBetaEngine.findBestMove t cfg).1.nodeHistory = tl2 := by
    rw [h2]
  constructor
  · intro e he
    rw [hH] at he
    exact hsc e he
  · intro e he
    rw [hH2] at he
    exact hsc2 e he

/-- Witness for C10 at a concrete debug search producing one trace entry. -/
theorem c10_witness :
    entC10 ∈ (MinimaxEngine.findBestMove tC10w cfgD2dbg).1.nodeHistory ∧
    entC10.move.score = Score.fin 0 :=
  ⟨by decide,
   (c10_trace_scores_zero tC10w cfgD2dbg).1 entC10 (by decide)⟩

/-!
Facts about `foldl min` on scores (duals of the `foldl max` facts above) and
the interchange laws used by the alpha-beta correctness proof.
-/

theorem foldl_min_le (l : List Score) : ∀ acc : Score, l.foldl min acc ≤ acc := by
  induction l with
  | nil => intro acc; simp
  | cons a l ih =>
    intro acc
    rw [List.foldl_cons]
    exact le_trans (ih (min acc a)) (min_le_left acc a)

theorem foldl_min_le_mem (l : List Score) :
    ∀ (acc s : Score), s ∈ l → l.foldl min acc ≤ s := by
  induction l with
  | nil => intro acc s h; simp at h
  | cons a l ih =>
    intro acc s h
    rcases List.mem_cons.mp h with h | h
    · subst h
      exact le_trans (foldl_min_le l (min acc s)) (min_le_right acc s)
    · exact ih (min acc a) s h

theorem le_foldl_min_iff (l : List Score) :
    ∀ (acc x : Score), x ≤ l.foldl min acc ↔ x ≤ acc ∧ ∀ s ∈ l, x ≤ s := by
  induction l with
  | nil => intro acc x; simp
  | cons a l ih =>
    intro acc x
    rw [List.foldl_cons, ih (min acc a) x, le_min_iff]
    constructor
    · rintro ⟨⟨h1, h2⟩, h3⟩
      exact ⟨h1, fun s hs => by
        rcases List.mem_cons.mp hs with hs | hs
        · subst hs; exact h2
        · exact h3 s hs⟩
    · rintro ⟨h1, h2⟩
      exact ⟨⟨h1, h2 a (List.mem_cons_self a l)⟩,
        fun s hs => h2 s (List.mem_cons_of_mem a hs)⟩

theorem foldl_max_max (l : List Score) :
    ∀ x y : Score, l.foldl max (max x y) = max x (l.foldl max y) := by
  induction l with
  | nil => intro x y; simp
  | cons a l ih =>
    intro x y
    rw [List.foldl_cons, List.foldl_cons, max_assoc, ih x (max y a)]

theorem foldl_min_min (l : List Score) :
    ∀ x y : Score, l.foldl min (min x y) = min x (l.foldl min y) := by
  induction l with
  | nil => intro x y; simp
  | cons a l ih =>
    intro a' y
    rw [List.foldl_cons, List.foldl_cons, min_assoc, ih a' (min y a)]

/-!
Knuth–Moore fail-soft correctness of the alpha-beta search: with window
`(α, β)`, the returned value `r` satisfies `r ≤ α → v ≤ r`, `β ≤ r → r ≤ v`
and `α < r < β → r = v`, where `v` is the exact minimax value.  With the full
window this forces `r = v`.
-/

theorem abLoopMax_km (d : Nat) (β : Score) :
    ∀ (ms : List (MoveData × GameTree)),
      (∀ p ∈ ms, ∀ a : Score, a < β →
        ((abRun d a β false p.2).val ≤ a →
          valM d p.2 ≤ (abRun d a β false p.2).val) ∧
        (β ≤ (abRun d a β false p.2).val →
          (abRun d a β false p.2).val ≤ valM d p.2) ∧
        (a < (abRun d a β false p.2).val → (abRun d a β false p.2).val < β →
          (abRun d a β false p.2).val = valM d p.2)) →
      ∀ (m α a : Score), a = max α m → a < β →
        ((abLoopMax (fun x y c => abRun d x y false c) ms m a β).val ≤ α →
          (ms.map (fun p => valM d p.2)).foldl max m ≤
            (abLoopMax (fun x y c => abRun d x y false c) ms m a β).val) ∧
        (β ≤ (abLoopMax (fun x y c => abRun d x y false c) ms m a β).val →
          (abLoopMax (fun x y c => abRun d x y false c) ms m a β).val ≤
            (ms.map (fun p => valM d p.2)).foldl max m) ∧
        (α < (abLoopMax (fun x y c => abRun d x y false c) ms m a β).val →
          (abLoopMax (fun x y c => abRun d x y false c) ms m a β).val < β →
          (abLoopMax (fun x y c => abRun d x y false c) ms m a β).val =
            (ms.map (fun p => valM d p.2)).foldl max m) := by
  intro ms
  induction ms with
  | nil =>
    intro _ m α a _ _
    exact ⟨fun _ => le_refl m, fun _ => le_refl m, fun _ _ => rfl⟩
  | cons p ms ih =>
    intro hf m α a ha haβ
    have hfp := hf p (List.mem_cons_self p ms) a haβ
    have hαβ : α < β := lt_of_le_of_lt (by rw [ha]; exact le_max_left α m) haβ
    by_cases hcut : β ≤ max a (abRun d a β false p.2).val
    · have hr : (abLoopMax (fun x y c => abRun d x y false c) (p :: ms) m a β).val
          = max m (abRun d a β false p.2).val := by
        rw [abLoopMax]
        simp only [if_pos hcut]
      have hβrc : β ≤ (abRun d a β false p.2).val := by
        rcases le_max_iff.mp hcut with h | h
        · exact absurd h (not_le.mpr haβ)
        · exact h
      have hrcv : (abRun d a β false p.2).val ≤ valM d p.2 := hfp.2.1 hβrc
      have hv : ((p :: ms).map (fun p => valM d p.2)).foldl max m =
          max (valM d p.2) ((ms.map (fun p => valM d p.2)).foldl max m) := by
        rw [List.map_cons, List.foldl_cons, max_comm m (valM d p.2),
          foldl_max_max]
      refine ⟨?_, ?_, ?_⟩
      · intro hle
        exfalso
        rw [hr] at hle
        have hba : β ≤ α :=
          le_trans (le_trans hβrc (le_max_right m _)) hle
        exact absurd (lt_of_lt_of_le hαβ hba) (lt_irrefl α)
      · intro _
        rw [hr, hv]
        refine max_le ?_ ?_
        · exact le_trans (le_foldl_max _ m) (le_max_right _ _)
        · exact le_trans hrcv (le_max_left _ _)
      · intro _ h2
        exfalso
        rw [hr] at h2
        exact absurd (lt_of_le_of_lt (le_trans hβrc (le_max_right m _)) h2)
          (lt_irrefl β)
    · have hgo : (abLoopMax (fun x y c => abRun d x y false c) (p :: ms) m a β).val
          = (abLoopMax (fun x y c => abRun d x y false c) ms
              (max m (abRun d a β false p.2).val)
              (max a (abRun d a β false p.2).val) β).val := by
        rw [abLoopMax]
        simp only [if_neg hcut]
      have ha1β : max a (abRun d a β false p.2).val < β := not_le.mp hcut
      have ihs := ih (fun q hq => hf q (List.mem_cons_of_mem p hq))
        (max m (abRun d a β false p.2).val) α
        (max a (abRun d a β false p.2).val)
        (by rw [ha, max_assoc]) ha1β
      have hv' : (ms.map (fun p => valM d p.2)).foldl max
          (max m (abRun d a β false p.2).val) =
          max (abRun d a β false p.2).val
            ((ms.map (fun p => valM d p.2)).foldl max m) := by
        rw [max_comm m _, foldl_max_max]
      rcases lt_or_le a (abRun d a β false p.2).val with harc | harc
      · have hrcβ : (abRun d a β false p.2).val < β :=
          lt_of_le_of_lt (le_max_right a _) ha1β
        have hrcv : (abRun d a β false p.2).val = valM d p.2 :=
          hfp.2.2 harc hrcβ
        have hveq : ((p :: ms).map (fun p => valM d p.2)).foldl max m =
            (ms.map (fun p => valM d p.2)).foldl max
              (max m (abRun d a β false p.2).val) := by
          rw [List.map_cons, List.foldl_cons, hrcv]
        rw [hgo, hveq]
        exact ihs
      · have hvcrc : valM d p.2 ≤ (abRun d a β false p.2).val := hfp.1 harc
        have hrcam : (abRun d a β false p.2).val ≤ max α m := by
          rw [← ha]; exact harc
        have hv : ((p :: ms).map (fun p => valM d p.2)).foldl max m =
            max (valM d p.2) ((ms.map (fun p => valM d p.2)).foldl max m) := by
          rw [List.map_cons, List.foldl_cons, max_comm m (valM d p.2),
            foldl_max_max]
        refine ⟨?_, ?_, ?_⟩
        · intro hle
          rw [hgo] at hle
          have hvr := ihs.1 hle
          rw [hv'] at hvr
          rw [hgo, hv]
          exact le_trans (max_le_max hvcrc (le_refl _)) hvr
        · intro hβr
          rw [hgo] at hβr
          have hrv' := ihs.2.1 hβr
          rw [hv'] at hrv'
          rw [hgo, hv]
          have hX : (abLoopMax (fun x y c => abRun d x y false c) ms
              (max m (abRun d a β false p.2).val)
              (max a (abRun d a β false p.2).val) β).val ≤
              (ms.map (fun p => valM d p.2)).foldl max m := by
            rcases max_cases (abRun d a β false p.2).val
                ((ms.map (fun p => valM d p.2)).foldl max m) with
              ⟨hmx, _⟩ | ⟨hmx, _⟩
            · exfalso
              rw [hmx] at hrv'
              have h1 : β ≤ a := le_trans hβr (le_trans hrv' harc)
              exact absurd (lt_of_le_of_lt h1 haβ) (lt_irrefl β)
            · rw [hmx] at hrv'
              exact hrv'
          exact le_trans hX (le_max_right _ _)
        · intro h1 h2
          rw [hgo] at h1 h2
          have hrv' := ihs.2.2 h1 h2
          rw [hv'] at hrv'
          rw [hgo, hv]
          have hrX : (abLoopMax (fun x y c => abRun d x y false c) ms
              (max m (abRun d a β false p.2).val)
              (max a (abRun d a β false p.2).val) β).val =
              (ms.map (fun p => valM d p.2)).foldl max m := by
            rcases max_cases (abRun d a β false p.2).val
                ((ms.map (fun p => valM d p.2)).foldl max m) with
              ⟨hmx, hXrc⟩ | ⟨hmx, _⟩
            · rw [hmx] at hrv'
              rcases le_max_iff.mp hrcam with hrcα | hrcm
              · exfalso
                have : α < α := lt_of_lt_of_le h1 (le_trans (le_of_eq hrv') hrcα)
                exact absurd this (lt_irrefl α)
              · have hmX : m ≤ (ms.map (fun p => valM d p.2)).foldl max m :=
                  le_foldl_max _ m
                exact hrv'.trans (le_antisymm hXrc (le_trans hrcm hmX)).symm
            · rw [hmx] at hrv'
              exact hrv'
          rw [hrX]
          rcases le_max_iff.mp hrcam with hrcα | hrcm
          · have hvcX : valM d p.2 ≤ (ms.map (fun p => valM d p.2)).foldl max m :=
              le_trans hvcrc (le_trans hrcα (le_of_lt (hrX ▸ h1)))
            exact (max_eq_right hvcX).symm
          · have hvcX : valM d p.2 ≤ (ms.map (fun p => valM d p.2)).foldl max m :=
              le_trans hvcrc (le_trans hrcm (le_foldl_max _ m))
            exact (max_eq_right hvcX).symm

theorem abLoopMin_km (d : Nat) (α : Score) :
    ∀ (ms : List (MoveData × GameTree)),
      (∀ p ∈ ms, ∀ b : Score, α < b →
        ((abRun d α b true p.2).val ≤ α →
          valM d p.2 ≤ (abRun d α b true p.2).val) ∧
        (b ≤ (abRun d α b true p.2).val →
          (abRun d α b true p.2).val ≤ valM d p.2) ∧
        (α < (abRun d α b true p.2).val → (abRun d α b true p.2).val < b →
          (abRun d α b true p.2).val = valM d p.2)) →
      ∀ (m β b : Score), b = min β m → α < b →
        ((abLoopMin (fun x y c => abRun d x y true c) ms m α b).val ≤ α →
          (ms.map (fun p => valM d p.2)).foldl min m ≤
            (abLoopMin (fun x y c => abRun d x y true c) ms m α b).val) ∧
        (β ≤ (abLoopMin (fun x y c => abRun d x y true c) ms m α b).val →
          (abLoopMin (fun x y c => abRun d x y true c) ms m α b).val ≤
            (ms.map (fun p => valM d p.2)).foldl min m) ∧
        (α < (abLoopMin (fun x y c => abRun d x y true c) ms m α b).val →
          (abLoopMin (fun x y c => abRun d x y true c) ms m α b).val < β →
          (abLoopMin (fun x y c => abRun d x y true c) ms m α b).val =
            (ms.map (fun p => valM d p.2)).foldl min m) := by
  intro ms
  induction ms with
  | nil =>
    intro _ m β b _ _
    exact ⟨fun _ => le_refl m, fun _ => le_refl m, fun _ _ => rfl⟩
  | cons p ms ih =>
    intro hf m β b hb hαb
    have hfp := hf p (List.mem_cons_self p ms) b hαb
    have hbβ : b ≤ β := by rw [hb]; exact min_le_left β m
    have hαβ : α < β := lt_of_lt_of_le hαb hbβ
    by_cases hcut : min b (abRun d α b true p.2).val ≤ α
    · have hr : (abLoopMin (fun x y c => abRun d x y true c) (p :: ms) m α b).val
          = min m (abRun d α b true p.2).val := by
        rw [abLoopMin]
        simp only [if_pos hcut]
      have hrcα : (abRun d α b true p.2).val ≤ α := by
        rcases min_le_iff.mp hcut with h | h
        · exact absurd h (not_le.mpr hαb)
        · exact h
      have hvrc : valM d p.2 ≤ (abRun d α b true p.2).val := hfp.1 hrcα
      have hvfold : ((p :: ms).map (fun p => valM d p.2)).foldl min m =
          (ms.map (fun p => valM d p.2)).foldl min (min m (valM d p.2)) := by
        rw [List.map_cons, List.foldl_cons]
      refine ⟨?_, ?_, ?_⟩
      · intro _
        rw [hr, hvfold]
        refine le_min ?_ ?_
        · exact le_trans (foldl_min_le _ _) (min_le_left _ _)
        · exact le_trans (le_trans (foldl_min_le _ _) (min_le_right _ _)) hvrc
      · intro hβr
        exfalso
        rw [hr] at hβr
        have hβα : β ≤ α :=
          le_trans hβr (le_trans (min_le_right m _) hrcα)
        exact absurd (lt_of_lt_of_le hαβ hβα) (lt_irrefl α)
      · intro h1 _
        exfalso
        rw [hr] at h1
        exact absurd (lt_of_lt_of_le h1 (le_trans (min_le_right m _) hrcα))
          (lt_irrefl α)
    · have hgo : (abLoopMin (fun x y c => abRun d x y true c) (p :: ms) m α b).val
          = (abLoopMin (fun x y c => abRun d x y true c) ms
              (min m (abRun d α b true p.2).val) α
              (min b (abRun d α b true p.2).val)).val := by
        rw [abLoopMin]
        simp only [if_neg hcut]
      have hαb1 : α < min b (abRun d α b true p.2).val := not_le.mp hcut
      have ihs := ih (fun q hq => hf q (List.mem_cons_of_mem p hq))
        (min m (abRun d α b true p.2).val) β
        (min b (abRun d α b true p.2).val)
        (by rw [hb, min_assoc]) hαb1
      have hv' : (ms.map (fun p => valM d p.2)).foldl min
          (min m (abRun d α b true p.2).val) =
          min (abRun d α b true p.2).val
            ((ms.map (fun p => valM d p.2)).foldl min m) := by
        rw [min_comm m _, foldl_min_min]
      rcases lt_or_le (abRun d α b true p.2).val b with hrcb | hbrc
      · have hαrc : α < (abRun d α b true p.2).val :=
          lt_of_lt_of_le hαb1 (min_le_right b _)
        have hrcv : (abRun d α b true p.2).val = valM d p.2 :=
          hfp.2.2 hαrc hrcb
        have hveq : ((p :: ms).map (fun p => valM d p.2)).foldl min m =
            (ms.map (fun p => valM d p.2)).foldl min
              (min m (abRun d α b true p.2).val) := by
          rw [List.map_cons, List.foldl_cons, hrcv]
        rw [hgo, hveq]
        exact ihs
      · have hrcv : (abRun d α b true p.2).val ≤ valM d p.2 := hfp.2.1 hbrc
        have hrcbm : min β m ≤ (abRun d α b true p.2).val := by
          rw [← hb]; exact hbrc
        have hv : ((p :: ms).map (fun p => valM d p.2)).foldl min m =
            min (valM d p.2) ((ms.map (fun p => valM d p.2)).foldl min m) := by
          rw [List.map_cons, List.foldl_cons, min_comm m (valM d p.2),
            foldl_min_min]
        refine ⟨?_, ?_, ?_⟩
        · intro hle
          rw [hgo] at hle
          have hrv' := ihs.1 hle
          rw [hv'] at hrv'
          rw [hgo, hv]
          have hX : (ms.map (fun p => valM d p.2)).foldl min m ≤
              (abLoopMin (fun x y c => abRun d x y true c) ms
                (min m (abRun d α b true p.2).val) α
                (min b (abRun d α b true p.2).val)).val := by
            rcases min_cases (abRun d α b true p.2).val
                ((ms.map (fun p => valM d p.2)).foldl min m) with
              ⟨hmx, _⟩ | ⟨hmx, _⟩
            · exfalso
              rw [hmx] at hrv'
              have h1 : b ≤ α := le_trans (le_trans hbrc hrv') hle
              exact absurd (lt_of_lt_of_le hαb h1) (lt_irrefl α)
            · rw [hmx] at hrv'
              exact hrv'
          exact le_trans (min_le_right _ _) hX
        · intro hβr
          rw [hgo] at hβr
          have hrv' := ihs.2.1 hβr
          rw [hv'] at hrv'
          rw [hgo, hv]
          refine le_min ?_ ?_
          · exact le_trans (le_trans hrv' (min_le_left _ _)) hrcv
          · exact le_trans hrv' (min_le_right _ _)
        · intro h1 h2
          rw [hgo] at h1 h2
          have hrv' := ihs.2.2 h1 h2
          rw [hv'] at hrv'
          rw [hgo, hv]
          have hrX : (abLoopMin (fun x y c => abRun d x y true c) ms
              (min m (abRun d α b true p.2).val) α
              (min b (abRun d α b true p.2).val)).val =
              (ms.map (fun p => valM d p.2)).foldl min m := by
            rcases min_cases (abRun d α b true p.2).val
                ((ms.map (fun p => valM d p.2)).foldl min m) with
              ⟨hmx, hXrc⟩ | ⟨hmx, _⟩
            · rw [hmx] at hrv'
              rcases min_le_iff.mp hrcbm with hβrc | hmrc
              · exfalso
                have hc : β ≤ β :=
                  le_refl β
                have : β ≤ (abLoopMin (fun x y c => abRun d x y true c) ms
                    (min m (abRun d α b true p.2).val) α
                    (min b (abRun d α b true p.2).val)).val :=
                  le_trans hβrc (le_of_eq hrv'.symm)
                exact absurd (lt_of_le_of_lt this h2) (lt_irrefl _)
              · have hXm : (ms.map (fun p => valM d p.2)).foldl min m ≤ m :=
                  foldl_min_le _ m
                exact hrv'.trans (le_antisymm (le_trans hXm hmrc) hXrc).symm
            · rw [hmx] at hrv'
              exact hrv'
          rw [hrX]
          rcases min_le_iff.mp hrcbm with hβrc | hmrc
          · have hXvc : (ms.map (fun p => valM d p.2)).foldl min m ≤
                valM d p.2 := by
              refine le_trans ?_ hrcv
              refine le_trans (le_of_lt (hrX ▸ h2)) ?_
              exact hβrc
            exact (min_eq_right hXvc).symm
          · have hXvc : (ms.map (fun p => valM d p.2)).foldl min m ≤
                valM d p.2 :=
              le_trans (le_trans (foldl_min_le _ m) hmrc) hrcv
            exact (min_eq_right hXvc).symm

/-- Knuth–Moore fail-soft bounds for the pruned search against the plain
minimax value, on turn-alternating positions whose side to move matches the
maximizing role. -/
theorem abRun_km :
    ∀ (d : Nat) (w : Bool) (t : GameTree), AltTurn w t →
      ∀ (α β : Score), α < β →
        ((abRun d α β w t).val ≤ α → valM d t ≤ (abRun d α β w t).val) ∧
        (β ≤ (abRun d α β w t).val → (abRun d α β w t).val ≤ valM d t) ∧
        (α < (abRun d α β w t).val → (abRun d α β w t).val < β →
          (abRun d α β w t).val = valM d t) := by
  intro d
  induction d with
  | zero =>
    intro w t _ α β _
    exact ⟨fun _ => le_refl _, fun _ => le_refl _, fun _ _ => rfl⟩
  | succ d ihd =>
    intro w t halt α β hαβ
    have htw : t.turnWhite = w := halt.turn_eq
    by_cases hlen : t.children.length = 0
    · have hval : (abRun (d + 1) α β w t).val = valM (d + 1) t := by
        rw [abRun_succ, valM_succ]
        simp [hlen, htw]
      exact ⟨fun _ => le_of_eq hval.symm, fun _ => le_of_eq hval,
        fun _ _ => hval⟩
    · cases w with
      | true =>
        have hval : (abRun (d + 1) α β true t).val =
            (abLoopMax (fun x y c => abRun d x y false c) t.children
              Score.negInf α β).val := by
          rw [abRun_succ]
          simp [hlen]
        have hvm : valM (d + 1) t =
            (t.children.map (fun p => valM d p.2)).foldl max Score.negInf := by
          rw [valM_succ]
          simp [hlen, htw]
        have hf : ∀ p ∈ t.children, ∀ a : Score, a < β →
            ((abRun d a β false p.2).val ≤ a →
              valM d p.2 ≤ (abRun d a β false p.2).val) ∧
            (β ≤ (abRun d a β false p.2).val →
              (abRun d a β false p.2).val ≤ valM d p.2) ∧
            (a < (abRun d a β false p.2).val →
              (abRun d a β false p.2).val < β →
              (abRun d a β false p.2).val = valM d p.2) := by
          intro p hp a haβ
          have hac := halt.child p hp
          simp only [Bool.not_true] at hac
          exact ihd false p.2 hac a β haβ
        have hkm := abLoopMax_km d β t.children hf Score.negInf α α
          (max_eq_left (Score.bot_le α)).symm hαβ
        rw [hval, hvm]
        exact hkm
      | false =>
        have hval : (abRun (d + 1) α β false t).val =
            (abLoopMin (fun x y c => abRun d x y true c) t.children
              Score.posInf α β).val := by
          rw [abRun_succ]
          simp [hlen]
        have hvm : valM (d + 1) t =
            (t.children.map (fun p => valM d p.2)).foldl min Score.posInf := by
          rw [valM_succ]
          simp [hlen, htw]
        have hf : ∀ p ∈ t.children, ∀ b : Score, α < b →
            ((abRun d α b true p.2).val ≤ α →
              valM d p.2 ≤ (abRun d α b true p.2).val) ∧
            (b ≤ (abRun d α b true p.2).val →
              (abRun d α b true p.2).val ≤ valM d p.2) ∧
            (α < (abRun d α b true p.2).val →
              (abRun d α b true p.2).val < b →
              (abRun d α b true p.2).val = valM d p.2) := by
          intro p hp b hαb
          have hac := halt.child p hp
          simp only [Bool.not_false] at hac
          exact ihd true p.2 hac α b hαb
        have hkm := abLoopMin_km d α t.children hf Score.posInf β β
          (min_eq_left (Score.le_top β)).symm hαβ
        rw [hval, hvm]
        exact hkm

/-- With the full `(-Infinity, +Infinity)` window the pruned search computes
exactly the plain minimax value. -/
theorem abRun_val_eq_valM (d : Nat) (w : Bool) (t : GameTree)
    (h : AltTurn w t) :
    (abRun d Score.negInf Score.posInf w t).val = valM d t := by
  obtain ⟨p1, p2, p3⟩ :=
    abRun_km d w t h Score.negInf Score.posInf Score.bot_lt_top
  by_cases h1 : (abRun d Score.negInf Score.posInf w t).val ≤ Score.negInf
  · have hr : (abRun d Score.negInf Score.posInf w t).val = Score.negInf :=
      le_antisymm h1 (Score.bot_le _)
    have hv : valM d t ≤ Score.negInf := hr ▸ p1 h1
    rw [hr]
    exact (le_antisymm hv (Score.bot_le _)).symm
  · by_cases h2 : Score.posInf ≤ (abRun d Score.negInf Score.posInf w t).val
    · have hr : (abRun d Score.negInf Score.posInf w t).val = Score.posInf :=
        le_antisymm (Score.le_top _) h2
      have hv : Score.posInf ≤ valM d t := hr ▸ p2 h2
      rw [hr]
      exact (le_antisymm (Score.le_top _) hv).symm
    · exact p3 (not_le.mp h1) (not_le.mp h2)

/-- Positions with no legal moves alternate trivially. -/
theorem AltTurn.leaf (w : Bool) (fen : String) (cm : Bool) (e : Int) :
    AltTurn w (.node fen w cm e []) := by
  refine AltTurn.mk w _ rfl ?_
  intro p hp
  simp [GameTree.children] at hp

/-- Counterexample to C1 as stated: at a Black-to-move position the plain
engine returns no `bestMove` at all while the pruned engine returns one
(depth 1); and at depth 2 on the same mate-in-1-for-Black position the two
engines score Black's mating move with opposite sentinels (`-Infinity`
White-perspective vs `+Infinity` root-maximizing), so the selected scores are
not identical. -/
theorem c1_counterexample :
    (MinimaxEngine.findBestMove tC1 cfgD1).1.bestMove = none ∧
    (MinimaxAlphaBetaEngine.findBestMove tC1 cfgD1).1.bestMove ≠ none ∧
    ((MinimaxEngine.findBestMove tC1 cfgD2).1.analysis.map (fun a => a.score) =
      [Score.negInf]) ∧
    ((MinimaxAlphaBetaEngine.findBestMove tC1 cfgD2).1.analysis.map
      (fun a => a.score) = [Score.posInf]) := by
  refine ⟨by decide, by decide, by decide, by decide⟩

/-- Claim C1, amended: on White-to-move (turn-alternating) positions, at any
depth ≥ 1, the plain and the pruned engine return the same `bestMove` and
identical `analysis` lists (same moves, same scores, same order) — in
particular the same `bestMove.move` notation; this covers the standard
opening position at depth 2. -/
theorem c1_engines_agree_white_root (t : GameTree) (cfg : EngineConfig)
    (hw : t.turnWhite = true) (halt : AltTurn true t) (hd : 1 ≤ cfg.depth) :
    (MinimaxEngine.findBestMove t cfg).1.bestMove =
      (MinimaxAlphaBetaEngine.findBestMove t cfg).1.bestMove ∧
    (MinimaxEngine.findBestMove t cfg).1.analysis =
      (MinimaxAlphaBetaEngine.findBestMove t cfg).1.analysis := by
  have hrl : rootListAB cfg t = rootListM cfg t := by
    unfold rootListAB rootListM
    apply List.map_congr_left
    intro p hp
    have hc := halt.child p hp
    simp only [Bool.not_true] at hc
    rw [abRun_val_eq_valM (cfg.depth - 1) false p.2 hc]
  obtain ⟨tl, h, _, _⟩ := plainFind_char t cfg
  obtain ⟨tl2, h2, _, _⟩ := abFind_char t cfg
  have hBm : (MinimaxEngine.findBestMove t cfg).1.bestMove =
      selMax (rootListM cfg t) none Score.negInf := by
    rw [h]
    simp [hw]
  have hBa : (MinimaxAlphaBetaEngine.findBestMove t cfg).1.bestMove =
      selMax (rootListAB cfg t) none Score.negInf := by rw [h2]
  have hAm : (MinimaxEngine.findBestMove t cfg).1.analysis =
      (sortDesc (rootListM cfg t)).take 50 := by rw [h]
  have hAa : (MinimaxAlphaBetaEngine.findBestMove t cfg).1.analysis =
      (sortDesc (rootListAB cfg t)).take 50 := by rw [h2]
  constructor
  · rw [hBm, hBa, hrl]
  · rw [hAm, hAa, hrl]

/-- Witness for C1 at a concrete White-to-move depth-2 position. -/
theorem c1_witness :
    (MinimaxEngine.findBestMove tC1w cfgD2).1.bestMove =
      (MinimaxAlphaBetaEngine.findBestMove tC1w cfgD2).1.bestMove ∧
    (MinimaxEngine.findBestMove tC1w cfgD2).1.analysis =
      (MinimaxAlphaBetaEngine.findBestMove tC1w cfgD2).1.analysis := by
  refine c1_engines_agree_white_root tC1w cfgD2 rfl ?_ (by decide)
  refine AltTurn.mk true tC1w rfl ?_
  intro p hp
  simp only [tC1w, GameTree.children, List.mem_cons, List.mem_singleton,
    List.not_mem_nil, or_false] at hp
  rcases hp with hp | hp
  · subst hp
    refine AltTurn.mk false _ rfl ?_
    intro q hq
    simp only [GameTree.children, List.mem_singleton] at hq
    subst hq
    exact AltTurn.leaf true "c1w-a1" false 3
  · subst hp
    refine AltTurn.mk false _ rfl ?_
    intro q hq
    simp only [GameTree.children, List.mem_singleton] at hq
    subst hq
    exact AltTurn.leaf true "c1w-b1" false (-1)

/-!
Node-count comparison between the two searches (claim C5).
-/

theorem abLoopMax_cnt_le (d : Nat)
    (IH : ∀ (a b : Score) (m : Bool) (t : GameTree),
      (abRun d a b m t).cnt ≤ cntM d t) :
    ∀ (ms : List (MoveData × GameTree)) (me al be : Score),
      (abLoopMax (fun x y c => abRun d x y false c) ms me al be).cnt ≤
        (ms.map (fun p => cntM d p.2)).sum := by
  intro ms
  induction ms with
  | nil => intro me al be; simp [abLoopMax]
  | cons p ms ih =>
    intro me al be
    rw [List.map_cons, List.sum_cons]
    by_cases hcut : be ≤ max al (abRun d al be false p.2).val
    · have hr : (abLoopMax (fun x y c => abRun d x y false c) (p :: ms)
          me al be).cnt = (abRun d al be false p.2).cnt := by
        rw [abLoopMax]
        simp only [if_pos hcut]
      rw [hr]
      exact le_trans (IH al be false p.2) (Nat.le_add_right _ _)
    · have hr : (abLoopMax (fun x y c => abRun d x y false c) (p :: ms)
          me al be).cnt = (abRun d al be false p.2).cnt +
          (abLoopMax (fun x y c => abRun d x y false c) ms
            (max me (abRun d al be false p.2).val)
            (max al (abRun d al be false p.2).val) be).cnt := by
        rw [abLoopMax]
        simp only [if_neg hcut]
      rw [hr]
      exact Nat.add_le_add (IH al be false p.2) (ih _ _ _)

theorem abLoopMin_cnt_le (d : Nat)
    (IH : ∀ (a b : Score) (m : Bool) (t : GameTree),
      (abRun d a b m t).cnt ≤ cntM d t) :
    ∀ (ms : List (MoveData × GameTree)) (me al be : Score),
      (abLoopMin (fun x y c => abRun d x y true c) ms me al be).cnt ≤
        (ms.map (fun p => cntM d p.2)).sum := by
  intro ms
  induction ms with
  | nil => intro me al be; simp [abLoopMin]
  | cons p ms ih =>
    intro me al be
    rw [List.map_cons, List.sum_cons]
    by_cases hcut : min be (abRun d al be true p.2).val ≤ al
    · have hr : (abLoopMin (fun x y c => abRun d x y true c) (p :: ms)
          me al be).cnt = (abRun d al be true p.2).cnt := by
        rw [abLoopMin]
        simp only [if_pos hcut]
      rw [hr]
      exact le_trans (IH al be true p.2) (Nat.le_add_right _ _)
    · have hr : (abLoopMin (fun x y c => abRun d x y true c) (p :: ms)
          me al be).cnt = (abRun d al be true p.2).cnt +
          (abLoopMin (fun x y c => abRun d x y true c) ms
            (min me (abRun d al be true p.2).val) al
            (min be (abRun d al be true p.2).val)).cnt := by
        rw [abLoopMin]
        simp only [if_neg hcut]
      rw [hr]
      exact Nat.add_le_add (IH al be true p.2) (ih _ _ _)

/-- One pruned call never counts more nodes than the corresponding plain
call, whatever the window. -/
theorem abRun_cnt_le :
    ∀ (d : Nat) (a b : Score) (m : Bool) (t : GameTree),
      (abRun d a b m t).cnt ≤ cntM d t := by
  intro d
  induction d with
  | zero => intro a b m t; exact le_refl 1
  | succ d ihd =>
    intro a b m t
    by_cases hlen : t.children.length = 0
    · rw [abRun_succ, cntM_succ]
      simp [hlen]
    · cases m with
      | true =>
        have hr : (abRun (d + 1) a b true t).cnt =
            1 + (abLoopMax (fun x y c => abRun d x y false c) t.children
              Score.negInf a b).cnt := by
          rw [abRun_succ]
          simp [hlen]
        rw [hr, cntM_succ, if_neg hlen]
        exact Nat.add_le_add_left (abLoopMax_cnt_le d ihd t.children _ _ _) 1
      | false =>
        have hr : (abRun (d + 1) a b false t).cnt =
            1 + (abLoopMin (fun x y c => abRun d x y true c) t.children
              Score.posInf a b).cnt := by
          rw [abRun_succ]
          simp [hlen]
        rw [hr, cntM_succ, if_neg hlen]
        exact Nat.add_le_add_left (abLoopMin_cnt_le d ihd t.children _ _ _) 1

theorem abLoopMax_cnt_eq (d : Nat)
    (IH : ∀ (a b : Score) (m : Bool) (t : GameTree),
      (abRun d a b m t).cut = 0 → (abRun d a b m t).cnt = cntM d t) :
    ∀ (ms : List (MoveData × GameTree)) (me al be : Score),
      (abLoopMax (fun x y c => abRun d x y false c) ms me al be).cut = 0 →
      (abLoopMax (fun x y c => abRun d x y false c) ms me al be).cnt =
        (ms.map (fun p => cntM d p.2)).sum := by
  intro ms
  induction ms with
  | nil => intro me al be _; simp [abLoopMax]
  | cons p ms ih =>
    intro me al be hcz
    rw [List.map_cons, List.sum_cons]
    by_cases hcut : be ≤ max al (abRun d al be false p.2).val
    · exfalso
      have hc : (abLoopMax (fun x y c => abRun d x y false c) (p :: ms)
          me al be).cut = (abRun d al be false p.2).cut + 1 := by
        rw [abLoopMax]
        simp only [if_pos hcut]
      rw [hc] at hcz
      exact Nat.succ_ne_zero _ hcz
    · have hc : (abLoopMax (fun x y c => abRun d x y false c) (p :: ms)
          me al be).cut = (abRun d al be false p.2).cut +
          (abLoopMax (fun x y c => abRun d x y false c) ms
            (max me (abRun d al be false p.2).val)
            (max al (abRun d al be false p.2).val) be).cut := by
        rw [abLoopMax]
        simp only [if_neg hcut]
      have hr : (abLoopMax (fun x y c => abRun d x y false c) (p :: ms)
          me al be).cnt = (abRun d al be false p.2).cnt +
          (abLoopMax (fun x y c => abRun d x y false c) ms
            (max me (abRun d al be false p.2).val)
            (max al (abRun d al be false p.2).val) be).cnt := by
        rw [abLoopMax]
        simp only [if_neg hcut]
      rw [hc] at hcz
      obtain ⟨hc1, hc2⟩ := Nat.add_eq_zero.mp hcz
      rw [hr, IH al be false p.2 hc1, ih _ _ _ hc2]

theorem abLoopMin_cnt_eq (d : Nat)
    (IH : ∀ (a b : Score) (m : Bool) (t : GameTree),
      (abRun d a b m t).cut = 0 → (abRun d a b m t).cnt = cntM d t) :
    ∀ (ms : List (MoveData × GameTree)) (me al be : Score),
      (abLoopMin (fun x y c => abRun d x y true c) ms me al be).cut = 0 →
      (abLoopMin (fun x y c => abRun d x y true c) ms me al be).cnt =
        (ms.map (fun p => cntM d p.2)).sum := by
  intro ms
  induction ms with
  | nil => intro me al be _; simp [abLoopMin]
  | cons p ms ih =>
    intro me al be hcz
    rw [List.map_cons, List.sum_cons]
    by_cases hcut : min be (abRun d al be true p.2).val ≤ al
    · exfalso
      have hc : (abLoopMin (fun x y c => abRun d x y true c) (p :: ms)
          me al be).cut = (abRun d al be true p.2).cut + 1 := by
        rw [abLoopMin]
        simp only [if_pos hcut]
      rw [hc] at hcz
      exact Nat.succ_ne_zero _ hcz
    · have hc : (abLoopMin (fun x y c => abRun d x y true c) (p :: ms)
          me al be).cut = (abRun d al be true p.2).cut +
          (abLoopMin (fun x y c => abRun d x y true c) ms
            (min me (abRun d al be true p.2).val) al
            (min be (abRun d al be true p.2).val)).cut := by
        rw [abLoopMin]
        simp only [if_neg hcut]
      have hr : (abLoopMin (fun x y c => abRun d x y true c) (p :: ms)
          me al be).cnt = (abRun d al be true p.2).cnt +
          (abLoopMin (fun x y c => abRun d x y true c) ms
            (min me (abRun d al be true p.2).val) al
            (min be (abRun d al be true p.2).val)).cnt := by
        rw [abLoopMin]
        simp only [if_neg hcut]
      rw [hc] at hcz
      obtain ⟨hc1, hc2⟩ := Nat.add_eq_zero.mp hcz
      rw [hr, IH al be true p.2 hc1, ih _ _ _ hc2]

/-- With no cutoff event in a pruned call, its node count equals the plain
call's. -/
theorem abRun_cnt_eq_of_cut_zero :
    ∀ (d : Nat) (a b : Score) (m : Bool) (t : GameTree),
      (abRun d a b m t).cut = 0 → (abRun d a b m t).cnt = cntM d t := by
  intro d
  induction d with
  | zero => intro a b m t _; rfl
  | succ d ihd =>
    intro a b m t hcz
    by_cases hlen : t.children.length = 0
    · rw [abRun_succ, cntM_succ]
      simp [hlen]
    · cases m with
      | true =>
        have hc : (abRun (d + 1) a b true t).cut =
            (abLoopMax (fun x y c => abRun d x y false c) t.children
              Score.negInf a b).cut := by
          rw [abRun_succ]
          simp [hlen]
        have hr : (abRun (d + 1) a b true t).cnt =
            1 + (abLoopMax (fun x y c => abRun d x y false c) t.children
              Score.negInf a b).cnt := by
          rw [abRun_succ]
          simp [hlen]
        rw [hc] at hcz
        rw [hr, cntM_succ, if_neg hlen,
          abLoopMax_cnt_eq d ihd t.children _ _ _ hcz]
      | false =>
        have hc : (abRun (d + 1) a b false t).cut =
            (abLoopMin (fun x y c => abRun d x y true c) t.children
              Score.posInf a b).cut := by
          rw [abRun_succ]
          simp [hlen]
        have hr : (abRun (d + 1) a b false t).cnt =
            1 + (abLoopMin (fun x y c => abRun d x y true c) t.children
              Score.posInf a b).cnt := by
          rw [abRun_succ]
          simp [hlen]
        rw [hc] at hcz
        rw [hr, cntM_succ, if_neg hlen,
          abLoopMin_cnt_eq d ihd t.children _ _ _ hcz]

/-- Claim C5, amended: the pruned engine's `nodesEvaluated` never exceeds the
plain engine's, and when no `beta <= alpha` cutoff event occurs during the
pruned search the counts are equal.  (The converse — equality only when no
cutoff occurs — is false: a cutoff firing after a node's last sibling skips
nothing.) -/
theorem c5_node_counts (t : GameTree) (cfg : EngineConfig) :
    (MinimaxAlphaBetaEngine.findBestMove t cfg).1.nodesEvaluated ≤
      (MinimaxEngine.findBestMove t cfg).1.nodesEvaluated ∧
    (rootCutAB cfg t = 0 →
      (MinimaxAlphaBetaEngine.findBestMove t cfg).1.nodesEvaluated =
        (MinimaxEngine.findBestMove t cfg).1.nodesEvaluated) := by
  obtain ⟨tl, h, _, _⟩ := plainFind_char t cfg
  obtain ⟨tl2, h2, _, _⟩ := abFind_char t cfg
  have hN : (MinimaxEngine.findBestMove t cfg).1.nodesEvaluated =
      rootCntM cfg t := by rw [h]
  have hN2 : (MinimaxAlphaBetaEngine.findBestMove t cfg).1.nodesEvaluated =
      rootCntAB cfg t := by rw [h2]
  rw [hN, hN2]
  constructor
  · unfold rootCntAB rootCntM
    exact List.sum_le_sum (fun p _ => abRun_cnt_le (cfg.depth - 1) _ _ _ p.2)
  · intro hz
    unfold rootCutAB at hz
    unfold rootCntAB rootCntM
    have hall := List.sum_eq_zero_iff.mp hz
    refine congrArg List.sum (List.map_congr_left ?_)
    intro p hp
    exact abRun_cnt_eq_of_cut_zero (cfg.depth - 1) Score.negInf Score.posInf
      false p.2 (hall _ (List.mem_map_of_mem _ hp))

/-- Counterexample to the "equality exactly when no cutoff triggers" part of
C5: on `tC5x` at depth 3 the pruned search triggers exactly one cutoff — on
the last sibling of a node, skipping nothing — and both engines evaluate the
same number of nodes. -/
theorem c5_counterexample :
    (MinimaxAlphaBetaEngine.findBestMove tC5x cfgD3).1.nodesEvaluated =
      (MinimaxEngine.findBestMove tC5x cfgD3).1.nodesEvaluated ∧
    (MinimaxEngine.findBestMove tC5x cfgD3).1.nodesEvaluated = 6 ∧
    rootCutAB cfgD3 tC5x = 1 := by
  refine ⟨by decide, by decide, by decide⟩

/-- Witness for C5 at a concrete cutoff-free input. -/
theorem c5_witness :
    (MinimaxAlphaBetaEngine.findBestMove tC5w cfgD1).1.nodesEvaluated =
      (MinimaxEngine.findBestMove tC5w cfgD1).1.nodesEvaluated :=
  (c5_node_counts tC5w cfgD1).2 (by decide)

/-!
Mate-sentinel characterization at depth 2 (claim C3).
-/

theorem foldl_min_fin :
    ∀ (l : List Score), (∀ s ∈ l, ∃ z : Int, s = Score.fin z) →
      ∀ z0 : Int, ∃ z : Int, l.foldl min (Score.fin z0) = Score.fin z := by
  intro l
  induction l with
  | nil => intro _ z0; exact ⟨z0, rfl⟩
  | cons a l ih =>
    intro hfin z0
    obtain ⟨za, hza⟩ := hfin a (List.mem_cons_self a l)
    rw [List.foldl_cons, hza]
    rcases min_choice (Score.fin z0) (Score.fin za) with hm | hm
    · rw [hm]
      exact ih (fun s hs => hfin s (List.mem_cons_of_mem a hs)) z0
    · rw [hm]
      exact ih (fun s hs => hfin s (List.mem_cons_of_mem a hs)) za

/-- Value of a one-ply plain search below a Black-to-move position: the
`+Infinity` sentinel appears exactly when the position is checkmate (Black's
opponent having just mated... i.e. the moving side has no legal move and is
in checkmate); every other position yields a finite score (0 for stalemate,
otherwise a minimum of finite leaf evaluations). -/
theorem valM_one_char (c : GameTree) (hb : c.turnWhite = false) :
    (valM 1 c = Score.posInf ↔ (c.children.length = 0 ∧ c.checkmate = true)) ∧
    (¬(c.children.length = 0 ∧ c.checkmate = true) →
      ∃ z : Int, valM 1 c = Score.fin z) := by
  by_cases hlen : c.children.length = 0
  · by_cases hcm : c.checkmate = true
    · have hval : valM 1 c = Score.posInf := by
        rw [valM_succ]
        simp [hlen, hcm, hb]
      exact ⟨⟨fun _ => ⟨hlen, hcm⟩, fun _ => hval⟩,
        fun hk => absurd ⟨hlen, hcm⟩ hk⟩
    · have hval : valM 1 c = Score.fin 0 := by
        rw [valM_succ]
        simp [hlen, hcm, hb]
      constructor
      · rw [hval]
        constructor
        · intro hc
          exact absurd hc (by simp)
        · rintro ⟨_, hc⟩
          exact absurd hc hcm
      · intro _
        exact ⟨0, hval⟩
  · have hval : valM 1 c =
        (c.children.map (fun p => valM 0 p.2)).foldl min Score.posInf := by
      rw [valM_succ]
      simp [hlen, hb]
    have hfin : ∃ z : Int, valM 1 c = Score.fin z := by
      rw [hval]
      cases hch : c.children with
      | nil =>
        exfalso
        rw [hch] at hlen
        exact hlen rfl
      | cons q qs =>
        rw [List.map_cons, List.foldl_cons]
        have hq : valM 0 q.2 = Score.fin q.2.evalW := rfl
        rw [hq, min_eq_right (Score.le_top _)]
        refine foldl_min_fin _ ?_ q.2.evalW
        intro s hs
        rcases List.mem_map.mp hs with ⟨y, _, hy⟩
        exact ⟨y.2.evalW, hy.symm⟩
    obtain ⟨z, hz⟩ := hfin
    constructor
    · rw [hz]
      constructor
      · intro hc
        exact absurd hc (by simp)
      · rintro ⟨hc, _⟩
        exact absurd hc hlen
    · intro _
      exact ⟨z, hz⟩

/-- Claim C3, amended: at depth exactly 2 from a White-to-move
(turn-alternating) position, in both engines' returned analyses every root
move that delivers immediate checkmate scores the maximal possible value
`+Infinity` (the checkmated Black side thus receiving the minimum from its
own perspective), and every non-mating root move scores a finite value —
strictly below the sentinel — so the stable descending sort ranks every
mating move strictly above every non-mating alternative. -/
theorem c3_mate_sentinel_depth2 (t : GameTree) (cfg : EngineConfig)
    (hd : cfg.depth = 2) (hw : t.turnWhite = true) (halt : AltTurn true t) :
    ((MinimaxEngine.findBestMove t cfg).1.analysis =
      (sortDesc (rootListM cfg t)).take 50) ∧
    ((MinimaxAlphaBetaEngine.findBestMove t cfg).1.analysis =
      (sortDesc (rootListM cfg t)).take 50) ∧
    (∀ p ∈ t.children,
      (valM (cfg.depth - 1) p.2 = Score.posInf ↔
        (p.2.children.length = 0 ∧ p.2.checkmate = true)) ∧
      (¬(p.2.children.length = 0 ∧ p.2.checkmate = true) →
        ∃ z : Int, valM (cfg.depth - 1) p.2 = Score.fin z)) := by
  have hrl : rootListAB cfg t = rootListM cfg t := by
    unfold rootListAB rootListM
    apply List.map_congr_left
    intro p hp
    have hc := halt.child p hp
    simp only [Bool.not_true] at hc
    rw [abRun_val_eq_valM (cfg.depth - 1) false p.2 hc]
  obtain ⟨tl, h, _, _⟩ := plainFind_char t cfg
  obtain ⟨tl2, h2, _, _⟩ := abFind_char t cfg
  have hd1 : cfg.depth - 1 = 1 := by rw [hd]
  refine ⟨by rw [h], by rw [h2, hrl], ?_⟩
  intro p hp
  have hc := halt.child p hp
  simp only [Bool.not_true] at hc
  rw [hd1]
  exact valM_one_char p.2 hc.turn_eq

/-- Counterexample to C3 as stated: at depth 1 the mating move of a
mate-in-1 position is scored by the static evaluator (checkmate is never
detected at a depth-0 leaf), so it gets a finite score — not the maximal
sentinel — and is ranked below a non-mating capture of higher static value. -/
theorem c3_counterexample :
    (tC3x.children.map (fun p => p.2.checkmate)) = [true, false] ∧
    ((MinimaxEngine.findBestMove tC3x cfgD1).1.analysis.map
      (fun a => a.score)) = [Score.fin 9, Score.fin 0] ∧
    (MinimaxEngine.findBestMove tC3x cfgD1).1.bestMove =
      some (convertToAnalyzedMove
        ⟨"Rxd5", "d1", "d5", "r", some "q", none⟩ (Score.fin 9)) := by
  refine ⟨by decide, by decide, by decide⟩

/-- Witness for C3 at a concrete depth-2 mate-in-1 position. -/
theorem c3_witness :
    (MinimaxEngine.findBestMove tC3w cfgD2).1.analysis =
      (sortDesc (rootListM cfgD2 tC3w)).take 50 ∧
    valM (cfgD2.depth - 1) (GameTree.node "c3w-mate" false true 0 []) =
      Score.posInf := by
  have halt : AltTurn true tC3w := by
    refine AltTurn.mk true tC3w rfl ?_
    intro p hp
    simp only [tC3w, GameTree.children, List.mem_cons, List.mem_singleton,
      List.not_mem_nil, or_false] at hp
    rcases hp with hp | hp
    · subst hp
      exact AltTurn.leaf false "c3w-mate" true 0
    · subst hp
      refine AltTurn.mk false _ rfl ?_
      intro q hq
      simp only [GameTree.children, List.mem_singleton] at hq
      subst hq
      exact AltTurn.leaf true "c3w-quiet-reply" false 3
  have h := c3_mate_sentinel_depth2 tC3w cfgD2 rfl rfl halt
  refine ⟨h.1, ?_⟩
  exact (h.2.2 (⟨"Qg7#", "g3", "g7", "q", none, none⟩,
    GameTree.node "c3w-mate" false true 0 [])
    (by simp [tC3w, GameTree.children])).1.mpr (by decide)

end Chess
